import Mathlib

/-!
# Verification of the helpdesk thread-correlation core

A shallow embedding, over `List Char` (Python `str` restricted to its
character sequence), of the pure core of the email↔issue-tracker bridge:

* `scripts/utils.py` — the metadata codec (`parse_metadata_from_issue_body`,
  `format_metadata_comment`), subject-tag handling
  (`extract_gh_number_from_subject`, `format_issue_title`),
  `sanitize_email_body`, `has_email_marker`;
* `scripts/email_to_github.py` — the thread-resolution decision of
  `process_email` / `find_issue_by_thread` and its `update_issue_metadata`;
* `scripts/github_to_email.py` — the outbound gate `should_skip_comment`,
  `mentions_customer_bot`, `process_comment` and its `update_issue_metadata`.

The Python code locates fields with `re` patterns; the embedding implements
each concrete pattern's backtracking semantics (leftmost match, greedy
`\s+`/`\s*`, lazy `(.*?)`) directly as recursive functions.  `json.loads` /
`json.dumps` are modelled by a full JSON value parser / printer; numbers are
kept as their lexemes (fidelity note: Python would normalise numeric
lexemes on a dump; no theorem below evaluates a dump of a parsed number).
External services (IMAP, SMTP, GitHub API) are inputs/outputs of the pure
decision functions: the list of open helpdesk issues stands for the result
of the `label:helpdesk is:open` search, and a `Bool` stands for the result
of `send_email`.
-/

namespace Helpdesk

/-! ## Python character classes (`re` `\s` on ASCII) and small string utilities -/

/-- Python `re` `\s` on ASCII text: space, tab, newline, carriage return,
vertical tab, form feed. -/
def pySpace (c : Char) : Bool :=
  c = ' ' || c = '\t' || c = '\n' || c = '\r' || c = '\x0b' || c = '\x0c'

/-- `str.strip()`: remove leading and trailing whitespace. -/
def strip (s : List Char) : List Char :=
  ((s.dropWhile pySpace).reverse.dropWhile pySpace).reverse

/-- `s.startswith(w)` / "the pattern's literal `w` matches at the head". -/
def startsWith : List Char → List Char → Bool
  | [], _ => true
  | _ :: _, [] => false
  | c :: w, d :: s => decide (c = d) && startsWith w s

/-- Python `w in s` (substring containment). -/
def containsSub (w : List Char) : List Char → Bool
  | [] => w.isEmpty
  | s@(_ :: t) => startsWith w s || containsSub w t

/-- `re.search` driver: try the anchored matcher `f` at every position, left
to right, returning the first success (Python's leftmost-match rule). -/
def scanFor {α : Type} (f : List Char → Option α) : List Char → Option α
  | [] => f []
  | s@(_ :: t) => (f s).elim (scanFor f t) some

/-! ## The metadata block pattern `<!-- HELPDESK_METADATA\s+(.*?)\s+-->` -/

def metaLit : List Char := "<!-- HELPDESK_METADATA".toList
def arrowLit : List Char := "-->".toList
def tidLit : List Char := "thread_id:".toList
def fromLit : List Char := "from:".toList
def midsLit : List Char := "message_ids:".toList

/-- Does `\s+-->` match at the head?  The greedy `\s+` can only hand the
literal the position after the maximal whitespace run (whitespace is never
`'-'`), so this is: head is whitespace, and `-->` follows the run. -/
def wsArrow : List Char → Bool
  | [] => false
  | c :: t => pySpace c && startsWith arrowLit (t.dropWhile pySpace)

/-- The lazy group `(.*?)` before `\s+-->`: the shortest prefix whose
remainder matches `\s+-->`; `none` when no remainder does. -/
def lazyScan : List Char → Option (List Char)
  | [] => none
  | s@(c :: t) => if wsArrow s then some [] else (lazyScan t).map (c :: ·)

/-- `\s+(.*?)\s+-->` at the head (Python backtracking): greedy `\s+` takes
the maximal run first and the lazy group is grown inside that choice; only
if no growth succeeds does `\s+` give one character back (then the group
matches empty against the run's last character followed by `-->`). -/
def matchInner : List Char → Option (List Char)
  | [] => none
  | c :: t =>
    if pySpace c then
      match lazyScan (t.dropWhile pySpace) with
      | some g => some g
      | none =>
        match t with
        | c2 :: _ =>
          if pySpace c2 && startsWith arrowLit (t.dropWhile pySpace) then some [] else none
        | [] => none
    else none

/-- The block pattern anchored at one position. -/
def blockAt (s : List Char) : Option (List Char) :=
  if startsWith metaLit s then matchInner (s.drop metaLit.length) else none

/-- `re.search(r'<!-- HELPDESK_METADATA\s+(.*?)\s+-->', body, re.DOTALL)`,
returning group 1. -/
def blockScan : List Char → Option (List Char) :=
  scanFor blockAt

/-! ## The field patterns `thread_id:\s*(.+)`, `from:\s*(.+)`,
`message_ids:\s*(\[.*?\])` -/

/-- `\s*(.+)` at the head (no DOTALL: `.` is `[^\n]`): greedy `\s*` takes
the maximal whitespace run; if nothing follows it, it backtracks, so the
group becomes the last non-newline whitespace character (if any). -/
def lineGroup (s : List Char) : Option (List Char) :=
  match s.dropWhile pySpace with
  | [] => ((s.takeWhile pySpace).reverse.find? (fun c => !(c = '\n' : Bool))).map (fun c => [c])
  | rest => some (rest.takeWhile (fun c => !(c = '\n' : Bool)))

/-- A field pattern anchored at one position. -/
def fieldAt (lbl : List Char) (s : List Char) : Option (List Char) :=
  if startsWith lbl s then lineGroup (s.drop lbl.length) else none

/-- `re.search(lbl ++ r'\s*(.+)', s)`, returning group 1 (unstripped). -/
def fieldScan (lbl : List Char) : List Char → Option (List Char) :=
  scanFor (fieldAt lbl)

/-- Everything up to and including the first `']'` (the lazy `.*?` before
`\]`, DOTALL). -/
def takeToBracket : List Char → Option (List Char)
  | [] => none
  | c :: t => if c = ']' then some [c] else (takeToBracket t).map (c :: ·)

/-- `\s*(\[.*?\])` at the head: `\s*` is greedy but no whitespace character
is `'['`, so only the full run works; then the group runs to the first
`']'`. -/
def bracketGroup (s : List Char) : Option (List Char) :=
  match s.dropWhile pySpace with
  | '[' :: rest => (takeToBracket rest).map ('[' :: ·)
  | _ => none

/-- The `message_ids` pattern anchored at one position. -/
def midsAt (s : List Char) : Option (List Char) :=
  if startsWith midsLit s then bracketGroup (s.drop midsLit.length) else none

/-- `re.search(r'message_ids:\s*(\[.*?\])', s, re.DOTALL)`, group 1. -/
def midsScan : List Char → Option (List Char) :=
  scanFor midsAt

/-! ## JSON values, `json.dumps` and `json.loads` -/

/-- JSON values as `json.loads` produces them.  Numbers keep their source
lexeme. -/
inductive Json where
  | jstr (s : List Char)
  | jnum (lexeme : List Char)
  | jbool (b : Bool)
  | jnull
  | jarr (elems : List Json)
  | jobj (fields : List ((List Char) × Json))

/-- Lowercase hex digit. -/
def hexDigit (n : Nat) : Char :=
  if n < 10 then Char.ofNat (48 + n) else Char.ofNat (87 + n)

def hex4 (n : Nat) : List Char :=
  [hexDigit (n / 4096 % 16), hexDigit (n / 256 % 16), hexDigit (n / 16 % 16), hexDigit (n % 16)]

/-- `\uXXXX` escape (with a surrogate pair above the BMP), as
`json.dumps` (`ensure_ascii=True`) emits it. -/
def uEsc (c : Char) : List Char :=
  let n := c.toNat
  if n < 0x10000 then '\\' :: 'u' :: hex4 n
  else
    let m := n - 0x10000
    ('\\' :: 'u' :: hex4 (0xd800 + m / 0x400)) ++ ('\\' :: 'u' :: hex4 (0xdc00 + m % 0x400))

/-- How `json.dumps` escapes one character inside a string literal. -/
def escChar (c : Char) : List Char :=
  if c = '"' then ['\\', '"']
  else if c = '\\' then ['\\', '\\']
  else if c = '\x08' then ['\\', 'b']
  else if c = '\t' then ['\\', 't']
  else if c = '\n' then ['\\', 'n']
  else if c = '\x0c' then ['\\', 'f']
  else if c = '\r' then ['\\', 'r']
  else if c.toNat < 0x20 || 0x7f ≤ c.toNat then uEsc c
  else [c]

def escStr : List Char → List Char
  | [] => []
  | c :: t => escChar c ++ escStr t

/-- `json.dumps` of a string. -/
def dumpStr (s : List Char) : List Char := '"' :: escStr s ++ ['"']

/-- `", ".join(…)` — the default item separator of `json.dumps`. -/
def joinItems : List (List Char) → List Char
  | [] => []
  | [x] => x
  | x :: y :: xs => x ++ ',' :: ' ' :: joinItems (y :: xs)

/-- `json.dumps` of a value (default separators `", "` and `": "`). -/
def jdump : Json → List Char
  | .jstr s => dumpStr s
  | .jnum lx => lx
  | .jbool true => "true".toList
  | .jbool false => "false".toList
  | .jnull => "null".toList
  | .jarr l => '[' :: joinItems (l.attach.map (fun x => jdump x.1)) ++ [']']
  | .jobj l =>
    '\x7b' :: joinItems (l.attach.map (fun x => dumpStr x.1.1 ++ ':' :: ' ' :: jdump x.1.2))
      ++ ['\x7d']
termination_by v => sizeOf v
decreasing_by
  · have := List.sizeOf_lt_of_mem x.2
    simp only [Json.jarr.sizeOf_spec]
    omega
  · obtain ⟨⟨k, v⟩, hm⟩ := x
    have h1 := List.sizeOf_lt_of_mem hm
    simp only [Prod.mk.sizeOf_spec] at h1
    simp only [Json.jobj.sizeOf_spec]
    omega

/-- `json.dumps` of a list value. -/
def jdumpArr (l : List Json) : List Char := '[' :: joinItems (l.map jdump) ++ [']']

/-- JSON whitespace (`json.loads` skips exactly these four). -/
def jsonWs (c : Char) : Bool :=
  c = ' ' || c = '\t' || c = '\n' || c = '\r'

def hexVal (c : Char) : Option Nat :=
  if '0' ≤ c ∧ c ≤ '9' then some (c.toNat - 48)
  else if 'a' ≤ c ∧ c ≤ 'f' then some (c.toNat - 87)
  else if 'A' ≤ c ∧ c ≤ 'F' then some (c.toNat - 70)
  else none

/-- Replacement character standing for a lone surrogate; Python keeps the
lone surrogate in the `str` (a code point `Char` cannot carry), so only the
identity of such characters diverges, never success/failure. -/
def loneSurrogate : Char := Char.ofNat 0xfffd

/-- The escape handler after a `'\\'`, with the scanner to resume with
passed in: named escapes, `\uXXXX` (surrogate pairs combined), reject
anything else. -/
def escBranch (pj : List Char → Option (List Char × List Char)) :
    List Char → Option (List Char × List Char)
  | [] => none
  | e :: t2 =>
    if e = 'u' then
      (match t2 with
       | h1 :: h2 :: h3 :: h4 :: t3 =>
         (match hexVal h1, hexVal h2, hexVal h3, hexVal h4 with
          | some a, some b, some c2, some d =>
            let n := ((a * 16 + b) * 16 + c2) * 16 + d
            if 0xd800 ≤ n ∧ n ≤ 0xdbff then
              match t3 with
              | '\\' :: 'u' :: g1 :: g2 :: g3 :: g4 :: t4 =>
                (match hexVal g1, hexVal g2, hexVal g3, hexVal g4 with
                 | some a2, some b2, some c3, some d2 =>
                   let m := ((a2 * 16 + b2) * 16 + c3) * 16 + d2
                   if 0xdc00 ≤ m ∧ m ≤ 0xdfff then
                     (pj t4).map
                       (fun p =>
                         (Char.ofNat (0x10000 + (n - 0xd800) * 0x400 + (m - 0xdc00)) :: p.1,
                           p.2))
                   else (pj t3).map (fun p => (loneSurrogate :: p.1, p.2))
                 | _, _, _, _ => (pj t3).map (fun p => (loneSurrogate :: p.1, p.2)))
              | _ => (pj t3).map (fun p => (loneSurrogate :: p.1, p.2))
            else if 0xdc00 ≤ n ∧ n ≤ 0xdfff then
              (pj t3).map (fun p => (loneSurrogate :: p.1, p.2))
            else (pj t3).map (fun p => (Char.ofNat n :: p.1, p.2))
          | _, _, _, _ => none)
       | _ => none)
    else if e = '"' then (pj t2).map (fun p => ('"' :: p.1, p.2))
    else if e = '\\' then (pj t2).map (fun p => ('\\' :: p.1, p.2))
    else if e = '/' then (pj t2).map (fun p => ('/' :: p.1, p.2))
    else if e = 'b' then (pj t2).map (fun p => ('\x08' :: p.1, p.2))
    else if e = 'f' then (pj t2).map (fun p => ('\x0c' :: p.1, p.2))
    else if e = 'n' then (pj t2).map (fun p => ('\n' :: p.1, p.2))
    else if e = 'r' then (pj t2).map (fun p => ('\r' :: p.1, p.2))
    else if e = 't' then (pj t2).map (fun p => ('\t' :: p.1, p.2))
    else none

/-- `json.loads` string scanning, after the opening quote: returns the
decoded content and the rest after the closing quote.  Strict mode:
unescaped control characters are rejected.  Fuel-indexed (every step
consumes at least one character, so `length + 1` fuel always suffices). -/
def parseJStrAux : Nat → List Char → Option (List Char × List Char)
  | 0, _ => none
  | _ + 1, [] => none
  | f + 1, c :: t =>
    if c = '"' then some ([], t)
    else if c = '\\' then escBranch (parseJStrAux f) t
    else if c.toNat < 0x20 then none
    else (parseJStrAux f t).map (fun p => (c :: p.1, p.2))

/-- String scanning with always-sufficient fuel. -/
def parseJStr (t : List Char) : Option (List Char × List Char) :=
  parseJStrAux (t.length + 1) t

/-- Continuation of number lexing after `(e|E)`: `([eE][-+]?\d+)?` is
optional, so a failed exponent leaves the position before the `e`. -/
def afterExp (acc : List Char) (s : List Char) : Option (List Char × List Char) :=
  match s with
  | e :: rest =>
    if e = 'e' ∨ e = 'E' then
      let sg : List Char × List Char :=
        match rest with
        | '+' :: t => (['+'], t)
        | '-' :: t => (['-'], t)
        | _ => ([], rest)
      let ds := sg.2.takeWhile Char.isDigit
      if ds.isEmpty then some (acc, s)
      else some (acc ++ e :: sg.1 ++ ds, sg.2.dropWhile Char.isDigit)
    else some (acc, s)
  | [] => some (acc, [])

/-- Continuation of number lexing after the integer part: optional
`(\.\d+)?` then exponent. -/
def afterInt (acc : List Char) (s : List Char) : Option (List Char × List Char) :=
  match s with
  | '.' :: t =>
    let ds := t.takeWhile Char.isDigit
    if ds.isEmpty then afterExp acc ('.' :: t)
    else afterExp (acc ++ '.' :: ds) (t.dropWhile Char.isDigit)
  | _ => afterExp acc s

/-- The scanner's `NUMBER_RE`: `(-?(?:0|[1-9]\d*))(\.\d+)?([eE][-+]?\d+)?`,
anchored at the head; returns the lexeme and the rest. -/
def parseNum (s : List Char) : Option (List Char × List Char) :=
  let sgn : List Char × List Char :=
    match s with
    | '-' :: t => (['-'], t)
    | _ => ([], s)
  match sgn.2 with
  | '0' :: t => afterInt (sgn.1 ++ ['0']) t
  | c :: t =>
    if c.isDigit then
      afterInt (sgn.1 ++ c :: t.takeWhile Char.isDigit) (t.dropWhile Char.isDigit)
    else none
  | [] => none

/-- Non-container values: keywords, the non-finite constants, numbers. -/
def parseAtom (s : List Char) : Option (Json × List Char) :=
  if startsWith "true".toList s then some (.jbool true, s.drop 4)
  else if startsWith "false".toList s then some (.jbool false, s.drop 5)
  else if startsWith "null".toList s then some (.jnull, s.drop 4)
  else if startsWith "NaN".toList s then some (.jnum "NaN".toList, s.drop 3)
  else if startsWith "Infinity".toList s then some (.jnum "Infinity".toList, s.drop 8)
  else if startsWith "-Infinity".toList s then some (.jnum "-Infinity".toList, s.drop 9)
  else (parseNum s).map (fun p => (Json.jnum p.1, p.2))

/-- One or more comma-separated array items, ending at `']'`; the value
scanner is passed in (tying the knot of `json.loads` without mutual
recursion).  Fuel-indexed on the number of items. -/
def itemsLoop (pv : List Char → Option (Json × List Char)) :
    Nat → List Char → Option (List Json × List Char)
  | 0, _ => none
  | f + 1, s =>
    match pv s with
    | none => none
    | some (v, r) =>
      match r.dropWhile jsonWs with
      | ',' :: r2 => (itemsLoop pv f (r2.dropWhile jsonWs)).map (fun p => (v :: p.1, p.2))
      | ']' :: r2 => some ([v], r2)
      | _ => none

/-- One or more `"key": value` object members, ending at `'\x7d'`. -/
def fieldsLoop (pv : List Char → Option (Json × List Char)) :
    Nat → List Char → Option (List ((List Char) × Json) × List Char)
  | 0, _ => none
  | f + 1, s =>
    match s with
    | '"' :: t =>
      (match parseJStr t with
       | none => none
       | some (k, r) =>
         match r.dropWhile jsonWs with
         | ':' :: r2 =>
           (match pv (r2.dropWhile jsonWs) with
            | none => none
            | some (v, r3) =>
              match r3.dropWhile jsonWs with
              | ',' :: r4 =>
                (fieldsLoop pv f (r4.dropWhile jsonWs)).map (fun p => ((k, v) :: p.1, p.2))
              | '\x7d' :: r4 => some ([(k, v)], r4)
              | _ => none)
         | _ => none)
    | _ => none

/-- `json.loads` value scanner (fuel-indexed; every recursive call follows
at least one consumed character, so `length + 1` fuel always suffices).
Expects the value to start at the head (callers skip whitespace). -/
def parseVal : Nat → List Char → Option (Json × List Char)
  | 0, _ => none
  | _ + 1, '"' :: t => (parseJStr t).map (fun p => (Json.jstr p.1, p.2))
  | f + 1, '[' :: t =>
    (match t.dropWhile jsonWs with
     | ']' :: r => some (.jarr [], r)
     | _ => (itemsLoop (parseVal f) f (t.dropWhile jsonWs)).map (fun p => (Json.jarr p.1, p.2)))
  | f + 1, '\x7b' :: t =>
    (match t.dropWhile jsonWs with
     | '\x7d' :: r => some (.jobj [], r)
     | _ => (fieldsLoop (parseVal f) f (t.dropWhile jsonWs)).map (fun p => (Json.jobj p.1, p.2)))
  | _ + 1, s => parseAtom s

/-- `json.loads`: one value, whitespace allowed around it, nothing after. -/
def jsonLoads (s : List Char) : Option Json :=
  match parseVal (s.length + 1) (s.dropWhile jsonWs) with
  | some (v, r) => if (r.dropWhile jsonWs).isEmpty then some v else none
  | none => none

/-! ## The codec itself: `parse_metadata_from_issue_body` and
`format_metadata_comment` (`scripts/utils.py` lines 7–70) -/

/-- The dictionary `parse_metadata_from_issue_body` returns: `thread_id`
and `from` are present only when their pattern matched; `message_ids` is
always present. -/
structure Metadata where
  thread_id : Option (List Char)
  from_email : Option (List Char)
  message_ids : List Json

/-- The parsed list when `json.loads` produced a list, else `[]` (the
captured group always starts with `'['`, so a successful parse of it can
only be an array). -/
def jarrOrNil : Json → List Json
  | .jarr l => l
  | _ => []

/-- `utils.parse_metadata_from_issue_body`: locate the block, then the
three fields inside group 1; a missing or unparseable `message_ids` array
becomes `[]`. -/
def parse_metadata_from_issue_body (body : List Char) : Option Metadata :=
  (blockScan body).elim none fun m =>
    some ⟨(fieldScan tidLit m).map strip, (fieldScan fromLit m).map strip,
      (midsScan m).elim [] fun g => (jsonLoads g).elim [] jarrOrNil⟩

/-- `utils.format_metadata_comment` (an f-string; `message_ids` is passed
through `json.dumps`). -/
def format_metadata_comment (thread_id from_email : List Char) (message_ids : List Json) :
    List Char :=
  "<!-- HELPDESK_METADATA\nthread_id: ".toList ++ thread_id
    ++ "\nfrom: ".toList ++ from_email
    ++ "\nmessage_ids: ".toList ++ jdumpArr message_ids
    ++ "\n-->".toList

/-! ## `str.replace` and the remaining `utils.py` functions -/

/-- `str.replace` scan for a non-empty pattern (fuel-indexed; every step
consumes at least one character). -/
def replAux (old new : List Char) : Nat → List Char → List Char
  | 0, s => s
  | _ + 1, [] => []
  | f + 1, s@(c :: t) =>
    if startsWith old s then new ++ replAux old new f (s.drop old.length)
    else c :: replAux old new f t

/-- Python `s.replace(old, new)`: every non-overlapping occurrence, left to
right; an empty pattern interleaves `new` around every character. -/
def replaceAll (old new s : List Char) : List Char :=
  if old.isEmpty then new ++ s.foldr (fun c acc => c :: (new ++ acc)) []
  else replAux old new s.length s

def digitsToNat (ds : List Char) : Nat :=
  ds.foldl (fun a c => 10 * a + (c.toNat - 48)) 0

/-- `utils.extract_gh_number_from_subject`:
`re.search(r'\[GH-(\d+)\]', subject)` then `int(group(1))`.  The greedy
`\d+` can only hand `\]` the full digit run. -/
def extract_gh_number_from_subject (subject : List Char) : Option Nat :=
  scanFor (fun s =>
    if startsWith "[GH-".toList s then
      let r := s.drop 4
      let ds := r.takeWhile Char.isDigit
      if ds.isEmpty then none
      else
        match r.drop ds.length with
        | ']' :: _ => some (digitsToNat ds)
        | _ => none
    else none) subject

/-- One match of `\[GH-\d+\]\s*` at the head, returning its length. -/
def tryTag (s : List Char) : Option Nat :=
  if startsWith "[GH-".toList s then
    let r := s.drop 4
    let ds := r.takeWhile Char.isDigit
    if ds.isEmpty then none
    else
      match r.drop ds.length with
      | ']' :: rest => some (4 + ds.length + 1 + (rest.takeWhile pySpace).length)
      | _ => none
  else none

def subTagsAux : Nat → List Char → List Char
  | 0, s => s
  | _ + 1, [] => []
  | f + 1, s@(c :: t) =>
    match tryTag s with
    | some k => subTagsAux f (s.drop k)
    | none => c :: subTagsAux f t

/-- `re.sub(r'\[GH-\d+\]\s*', '', subject)` — every non-overlapping
occurrence removed. -/
def subTags (s : List Char) : List Char := subTagsAux s.length s

def lowerStr (s : List Char) : List Char := s.map Char.toLower

/-- `re.sub(r'^(Re:|RE:|Fwd:|FW:)\s*', '', s, flags=re.IGNORECASE)` —
anchored at position 0, so at most one occurrence is removed. -/
def subPrefixOnce (s : List Char) : List Char :=
  if startsWith "re:".toList (lowerStr s) then (s.drop 3).dropWhile pySpace
  else if startsWith "fwd:".toList (lowerStr s) then (s.drop 4).dropWhile pySpace
  else if startsWith "fw:".toList (lowerStr s) then (s.drop 3).dropWhile pySpace
  else s

def digitChar (n : Nat) : Char := Char.ofNat (48 + n)

def natDigitsAux : Nat → Nat → List Char
  | 0, _ => []
  | f + 1, n => if n < 10 then [digitChar n] else natDigitsAux f (n / 10) ++ [digitChar (n % 10)]

/-- Python `f"{n:04d}"` for a non-negative `n`. -/
def pad4 (n : Nat) : List Char :=
  let d := natDigitsAux (n + 1) n
  List.replicate (4 - d.length) '0' ++ d

/-- `utils.format_issue_title`: strip every `[GH-####]` tag, then one
leading reply/forward prefix, then prepend the zero-padded tag. -/
def format_issue_title (issue_number : Nat) (subject : List Char) : List Char :=
  "[GH-".toList ++ pad4 issue_number ++ "] ".toList
    ++ strip (subPrefixOnce (subTags subject))

def truncNotice : List Char := "\n\n[Content truncated...]".toList

/-- `utils.sanitize_email_body`: escape `<` and `>` to entities, then
truncate to 50000 characters with a notice. -/
def sanitize_email_body (body : List Char) : List Char :=
  let b1 := replaceAll ['<'] "&lt;".toList body
  let b2 := replaceAll ['>'] "&gt;".toList b1
  if 50000 < b2.length then b2.take 50000 ++ truncNotice else b2

/-- `utils.create_email_marker`. -/
def create_email_marker : List Char := "<!-- source:email -->".toList

/-- `utils.has_email_marker`: `"<!-- source:email -->" in text`. -/
def has_email_marker (text : List Char) : Bool :=
  containsSub create_email_marker text

/-! ## Outbound gate and unit (`scripts/github_to_email.py`) -/

/-- The parts of the `issue_comment` webhook payload the gate reads:
`issue.labels[*].name`, `comment.user.type` (absent key → `none`),
`comment.body`. -/
structure CommentEvent where
  labels : List (List Char)
  author_type : Option (List Char)
  comment_body : List Char

def helpdeskLit : List Char := "helpdesk".toList
def botLit : List Char := "Bot".toList

/-- `github_to_email.mentions_customer_bot`: case-insensitive `@username`
substring check; empty body or username → `False`. -/
def mentions_customer_bot (comment_body customer_bot_username : List Char) : Bool :=
  if comment_body.isEmpty || customer_bot_username.isEmpty then false
  else containsSub (lowerStr ('@' :: customer_bot_username)) (lowerStr comment_body)

/-- `github_to_email.should_skip_comment`: label gate, bot-author gate,
email-marker gate, then (when a customer-bot username is configured, i.e.
truthy) the opt-in self-mention gate. -/
def should_skip_comment (ev : CommentEvent) (customer_bot_username : Option (List Char)) :
    Bool × List Char :=
  if helpdeskLit ∉ ev.labels then
    (true, "Issue does not have \x27helpdesk\x27 label".toList)
  else if ev.author_type = some botLit then
    (true, "Comment author is a bot".toList)
  else if has_email_marker ev.comment_body then
    (true, "Comment originated from email (has marker)".toList)
  else
    customer_bot_username.elim (false, []) fun u =>
      if u.isEmpty then (false, [])
      else if mentions_customer_bot ev.comment_body u then (false, [])
      else (true, "Comment does not mention @".toList ++ u ++ " (internal comment)".toList)

namespace GithubToEmail

/-- `github_to_email.update_issue_metadata`: append the new id to the
already-parsed metadata **unconditionally**, rebuild old and new blocks,
and `str.replace` the old with the new in the issue body.  A `KeyError`
on a missing field is swallowed by the `try/except` (no update). -/
def update_issue_metadata (body new_message_id : List Char) (metadata : Metadata) : List Char :=
  metadata.thread_id.elim body fun tid =>
    metadata.from_email.elim body fun frm =>
      replaceAll (format_metadata_comment tid frm metadata.message_ids)
        (format_metadata_comment tid frm (metadata.message_ids ++ [.jstr new_message_id]))
        body

end GithubToEmail

/-- `github_to_email.process_comment`, with the external effects made
explicit: `new_message_id` stands for the fresh `generate_message_id()`,
`send_ok` for the `send_email` outcome.  Returns (reported success,
resulting issue body, body of the mail handed to transmission — `none`
when no transmission was attempted). -/
def process_comment (issueBody commentBody new_message_id : List Char) (send_ok : Bool) :
    Bool × List Char × Option (List Char) :=
  (parse_metadata_from_issue_body issueBody).elim (false, issueBody, none) fun metadata =>
    metadata.from_email.elim (false, issueBody, none) fun customer_email =>
      if customer_email.isEmpty then (false, issueBody, none)
      else if send_ok then
        (true, GithubToEmail.update_issue_metadata issueBody new_message_id metadata,
          some commentBody)
      else (false, issueBody, some commentBody)

/-- Outcome of one run of `github_to_email.main` on a comment event. -/
inductive OutboundAction where
  | skipped (reason : List Char)
  | processed (ok : Bool) (finalBody : List Char) (mail : Option (List Char))
deriving DecidableEq

/-- `github_to_email.main` after loading the event: gate, then process. -/
def outbound_run (ev : CommentEvent) (customer_bot_username : Option (List Char))
    (issueBody new_message_id : List Char) (send_ok : Bool) : OutboundAction :=
  match should_skip_comment ev customer_bot_username with
  | (true, r) => .skipped r
  | (false, _) =>
    match process_comment issueBody ev.comment_body new_message_id send_ok with
    | (ok, b, m) => .processed ok b m

/-- The process exit status of `main`: a skip is `sys.exit(0)`; a
processing failure is `sys.exit(1)`. -/
def exitCode : OutboundAction → Nat
  | .skipped _ => 0
  | .processed ok _ _ => if ok then 0 else 1

/-- What, if anything, was handed to the Mail Transmission Service. -/
def mailSent : OutboundAction → Option (List Char)
  | .skipped _ => none
  | .processed _ _ m => m

/-! ## Inbound thread resolution (`scripts/email_to_github.py`) -/

/-- The fields of `EmailMessage` the resolution logic reads (the helper
initialises `in_reply_to` to `""` when the header is absent). -/
structure PyEmail where
  subject : List Char
  in_reply_to : List Char
  references : List (List Char)

/-- An issue as returned by the `label:helpdesk is:open` search. -/
structure Issue where
  number : Nat
  body : List Char

/-- Python `x in stored_message_ids` for a string `x` against the parsed
JSON list: `==` between a `str` and a non-`str` element is `False`. -/
def memStr (x : List Char) (l : List Json) : Bool :=
  l.any fun v =>
    match v with
    | .jstr s => decide (s = x)
    | _ => false

/-- `email_to_github.find_issue_by_thread` over the open-helpdesk search
result: first issue whose parsed `message_ids` contains the mail's
`In-Reply-To` (truthy) or any entry of its `References`. -/
def find_issue_by_thread (msg : PyEmail) : List Issue → Option Issue
  | [] => none
  | issue :: rest =>
    match parse_metadata_from_issue_body issue.body with
    | none => find_issue_by_thread msg rest
    | some metadata =>
      if ¬ msg.in_reply_to.isEmpty ∧ memStr msg.in_reply_to metadata.message_ids then
        some issue
      else
        match msg.references.find? (fun r => memStr r metadata.message_ids) with
        | some _ => some issue
        | none => find_issue_by_thread msg rest

/-- Where one inbound mail is routed. -/
inductive InboundTarget where
  | reply (issue_number : Nat)
  | createNew
deriving DecidableEq

/-- The resolution decision of `email_to_github.process_email`:
`extract_gh_number_from_subject`, tested with Python truthiness
(`if gh_number:` — `None` **and `0`** are falsy), else the metadata
search over open helpdesk issues, else create. -/
def resolve_email_target (msg : PyEmail) (openIssues : List Issue) : InboundTarget :=
  match extract_gh_number_from_subject msg.subject with
  | some (n + 1) => .reply (n + 1)
  | _ =>
    match find_issue_by_thread msg openIssues with
    | some issue => .reply issue.number
    | none => .createNew

namespace EmailToGithub

/-- `email_to_github.update_issue_metadata`: re-parse the body, and **only
if the id is not already present** append it and `str.replace` the old
block with the new one; a parse failure or a `KeyError` (missing field)
leaves the body untouched. -/
def update_issue_metadata (body new_message_id : List Char) : List Char :=
  (parse_metadata_from_issue_body body).elim body fun metadata =>
    if memStr new_message_id metadata.message_ids then body
    else
      metadata.thread_id.elim body fun tid =>
        metadata.from_email.elim body fun frm =>
          replaceAll (format_metadata_comment tid frm metadata.message_ids)
            (format_metadata_comment tid frm (metadata.message_ids ++ [.jstr new_message_id]))
            body

end EmailToGithub

/-! ## Validity for the codec round trip (claim C1) -/

/-- Printable ASCII and none of the four bracket characters the fixed
format reserves. -/
def cleanChar (c : Char) : Bool :=
  0x20 ≤ c.toNat && c.toNat ≤ 0x7e
    && !(c = '<') && !(c = '>') && !(c = '[') && !(c = ']')

def cleanStr (s : List Char) : Bool := s.all cleanChar

/-- Valid inputs of the codec round trip: printable-ASCII, bracket-free
strings; thread id and address non-empty without edge spaces; and the
thread id does not contain the literal `from:` (all of which the
counterexamples to the unrestricted statement force). -/
def ValidTriple (tid frm : List Char) (toks : List (List Char)) : Prop :=
  cleanStr tid = true ∧ cleanStr frm = true ∧ (∀ t ∈ toks, cleanStr t = true) ∧
    tid ≠ [] ∧ frm ≠ [] ∧
    tid.head? ≠ some ' ' ∧ tid.getLast? ≠ some ' ' ∧
    frm.head? ≠ some ' ' ∧ frm.getLast? ≠ some ' ' ∧
    containsSub fromLit tid = false

/-! # Theorems

First the shared helper lemmas, then one theorem (plus witness or
counterexample) per claim. -/

/-! ## Generic facts about `startsWith`, `containsSub`, `scanFor` -/

theorem startsWith_nil (s : List Char) : startsWith [] s = true := by
  cases s <;> rfl

theorem startsWith_cons {c : Char} {w d s} :
    startsWith (c :: w) (d :: s) = (decide (c = d) && startsWith w s) := rfl

theorem startsWith_append_self (w r : List Char) : startsWith w (w ++ r) = true := by
  induction w with
  | nil => exact startsWith_nil r
  | cons c w ih => simp [startsWith_cons, ih]

theorem eq_append_of_startsWith : ∀ {w s : List Char}, startsWith w s = true →
    ∃ r, s = w ++ r := by
  intro w
  induction w with
  | nil => exact fun {s} _ => ⟨s, rfl⟩
  | cons c w ih =>
    intro s h
    cases s with
    | nil => simp [startsWith] at h
    | cons d t =>
      rw [startsWith_cons, Bool.and_eq_true, decide_eq_true_eq] at h
      obtain ⟨r, hr⟩ := ih h.2
      exact ⟨r, by simp [h.1, hr]⟩

theorem startsWith_length {w s : List Char} (h : startsWith w s = true) :
    w.length ≤ s.length := by
  obtain ⟨r, hr⟩ := eq_append_of_startsWith h
  simp [hr]

theorem startsWith_head {c : Char} {w s : List Char}
    (h : startsWith (c :: w) s = true) : s.head? = some c := by
  obtain ⟨r, hr⟩ := eq_append_of_startsWith h
  simp [hr]

theorem mem_of_startsWith {w s : List Char} (h : startsWith w s = true) {c : Char}
    (hc : c ∈ w) : c ∈ s := by
  obtain ⟨r, hr⟩ := eq_append_of_startsWith h
  simp [hr, hc]

/-- Decomposition of a literal match against a concatenation: the literal
fits inside the left part, or it swallows the left part whole and its
remainder matches the right part. -/
theorem startsWith_append_cases : ∀ {u w v : List Char},
    startsWith w (u ++ v) = true →
    startsWith w u = true ∨
      (startsWith u w = true ∧ startsWith (w.drop u.length) v = true) := by
  intro u
  induction u with
  | nil => exact fun {w v} h => Or.inr ⟨startsWith_nil w, h⟩
  | cons a u ih =>
    intro w v h
    cases w with
    | nil => exact Or.inl (startsWith_nil _)
    | cons b w' =>
      rw [List.cons_append, startsWith_cons, Bool.and_eq_true, decide_eq_true_eq] at h
      rcases ih h.2 with h' | ⟨h1, h2⟩
      · exact Or.inl (by rw [startsWith_cons]; simp [h.1, h'])
      · exact Or.inr ⟨by rw [startsWith_cons]; simp [h.1, h1], h2⟩

theorem containsSub_of_startsWith_drop {w s : List Char} (p : Nat)
    (h : startsWith w (s.drop p) = true) : containsSub w s = true := by
  induction s generalizing p with
  | nil =>
    simp only [List.drop_nil] at h
    cases w with
    | nil => rfl
    | cons c w => simp [startsWith] at h
  | cons d t ih =>
    cases p with
    | zero =>
      simp only [List.drop_zero] at h
      simp [containsSub, h]
    | succ p => simp [containsSub, ih p h]

theorem startsWith_drop_false_of_not_containsSub {w s : List Char}
    (h : containsSub w s = false) (p : Nat) : startsWith w (s.drop p) = false := by
  by_contra hc
  rw [Bool.not_eq_false] at hc
  rw [containsSub_of_startsWith_drop p hc] at h
  simp at h

theorem scanFor_of_some {α : Type} {f : List Char → Option α} {s : List Char} {r : α}
    (h : f s = some r) : scanFor f s = some r := by
  cases s <;> simp [scanFor, h]

theorem scanFor_append_skip {α : Type} {f : List Char → Option α} :
    ∀ {a y : List Char}, (∀ p, p < a.length → f ((a ++ y).drop p) = none) →
      scanFor f (a ++ y) = scanFor f y := by
  intro a
  induction a with
  | nil => intro y _; rfl
  | cons c a ih =>
    intro y h
    have h0 : f (c :: (a ++ y)) = none := by simpa using h 0 (Nat.succ_pos _)
    have hrest : ∀ p, p < a.length → f ((a ++ y).drop p) = none := by
      intro p hp
      simpa using h (p + 1) (Nat.succ_lt_succ hp)
    rw [List.cons_append,
      show scanFor f (c :: (a ++ y)) = (f (c :: (a ++ y))).elim (scanFor f (a ++ y)) some from rfl,
      h0]
    exact ih hrest

/-! ## Lemmas about `replAux` for the sanitizer (claim C10) -/

theorem mem_replAux_single {x : Char} {new : List Char} :
    ∀ {f : Nat} {s : List Char} {c : Char}, s.length ≤ f →
      c ∈ replAux [x] new f s → c ∈ new ∨ (c ∈ s ∧ c ≠ x) := by
  intro f
  induction f with
  | zero =>
    intro s c hs hm
    rw [Nat.le_zero, List.length_eq_zero] at hs
    subst hs
    simp [replAux] at hm
  | succ f ih =>
    intro s c hs hm
    cases s with
    | nil => simp [replAux] at hm
    | cons d t =>
      simp only [List.length_cons, Nat.succ_le_succ_iff] at hs
      by_cases hx : x = d
      · subst hx
        rw [replAux, if_pos (by simp [startsWith_cons, startsWith_nil])] at hm
        have hm' : c ∈ new ++ replAux [x] new f t := hm
        rcases List.mem_append.1 hm' with h | h
        · exact Or.inl h
        · rcases ih hs h with h' | ⟨h1, h2⟩
          · exact Or.inl h'
          · exact Or.inr ⟨List.mem_cons_of_mem _ h1, h2⟩
      · rw [replAux, if_neg (by simp [startsWith_cons, startsWith_nil, hx])] at hm
        rcases List.mem_cons.1 hm with h | h
        · subst h
          exact Or.inr ⟨List.mem_cons_self _ _, fun he => hx he.symm⟩
        · rcases ih hs h with h' | ⟨h1, h2⟩
          · exact Or.inl h'
          · exact Or.inr ⟨List.mem_cons_of_mem _ h1, h2⟩

theorem mem_replaceAll_single {x : Char} {new s : List Char} {c : Char}
    (hm : c ∈ replaceAll [x] new s) : c ∈ new ∨ (c ∈ s ∧ c ≠ x) := by
  rw [replaceAll, if_neg (by simp)] at hm
  exact mem_replAux_single (Nat.le_refl _) hm

/-! ## The outbound gate drives `main` (claims C3, C5) -/

theorem outbound_run_skipped {ev : CommentEvent} {u : Option (List Char)}
    {issueBody newId : List Char} {sendOk : Bool}
    (h : (should_skip_comment ev u).1 = true) :
    outbound_run ev u issueBody newId sendOk = .skipped (should_skip_comment ev u).2 := by
  unfold outbound_run
  rcases hp : should_skip_comment ev u with ⟨b, r⟩
  rw [hp] at h
  subst h
  rfl

/-! ## Evaluating `json.dumps` on string lists -/

theorem jdump_jstr (s : List Char) : jdump (.jstr s) = dumpStr s := by
  simp [jdump]

/-! ## Claim C2 — explicit subject tag short-circuits token matching -/

/-- C2 (as stated) is false: `[GH-0000]` is an explicit `[GH-NNNN]` tag
(`extract_gh_number_from_subject` parses it to `0`), but Python's
`if gh_number:` treats `0` as falsy, so resolution falls through to
token matching over the open conversations and returns the token-matched
issue 5 instead of conversation 0. -/
theorem c2_counterexample :
    extract_gh_number_from_subject "[GH-0000] help".toList = some 0 ∧
    resolve_email_target ⟨"[GH-0000] help".toList, "<m1@x>".toList, []⟩
        [⟨5, format_metadata_comment "T".toList "c@d".toList [.jstr "<m1@x>".toList]⟩]
      = .reply 5 ∧
    InboundTarget.reply 5 ≠ InboundTarget.reply 0 := by
  refine ⟨by decide, ?_, by decide⟩
  simp only [format_metadata_comment, jdumpArr, List.map_cons, List.map_nil, jdump_jstr]
  decide

/-- C2 (amended): for every inbound mail whose subject carries a tag with
a **non-zero** number, resolution returns that number directly, whatever
the open conversations' metadata would have matched. -/
theorem c2_tag_precedence (msg : PyEmail) (openIssues : List Issue) (n : Nat)
    (h : extract_gh_number_from_subject msg.subject = some n) (hn : n ≠ 0) :
    resolve_email_target msg openIssues = .reply n := by
  unfold resolve_email_target
  rw [h]
  cases n with
  | zero => exact absurd rfl hn
  | succ n => rfl

/-- Witness for C2: subject `[GH-0007]`, while the sole open issue's
metadata would token-match the mail's `In-Reply-To`. -/
theorem c2_witness :
    extract_gh_number_from_subject "[GH-0007] help".toList = some 7 ∧
    resolve_email_target ⟨"[GH-0007] help".toList, "<m1@x>".toList, []⟩
        [⟨5, format_metadata_comment "T".toList "c@d".toList [.jstr "<m1@x>".toList]⟩]
      = .reply 7 :=
  ⟨by decide, c2_tag_precedence _ _ 7 (by decide) (by decide)⟩

/-! ## Claim C3 — the email-origin marker is never re-sent -/

/-- C3: any comment event whose body contains the literal
`<!-- source:email -->` is skipped by `should_skip_comment` (whatever
gate fires first, the verdict is a skip), so `main` never hands anything
to the Mail Transmission Service for it. -/
theorem c3_marker_skipped (ev : CommentEvent) (u : Option (List Char))
    (issueBody newId : List Char) (sendOk : Bool)
    (h : has_email_marker ev.comment_body = true) :
    (should_skip_comment ev u).1 = true ∧
      mailSent (outbound_run ev u issueBody newId sendOk) = none := by
  have hskip : (should_skip_comment ev u).1 = true := by
    unfold should_skip_comment
    by_cases h1 : helpdeskLit ∉ ev.labels
    · rw [if_pos h1]
    · rw [if_neg h1]
      by_cases h2 : ev.author_type = some botLit
      · rw [if_pos h2]
      · rw [if_neg h2, if_pos h]
  exact ⟨hskip, by rw [outbound_run_skipped hskip]; rfl⟩

/-- Witness for C3. -/
theorem c3_witness :
    has_email_marker "thanks!\n\n<!-- source:email -->".toList = true ∧
      (should_skip_comment ⟨["helpdesk".toList], some "User".toList,
          "thanks!\n\n<!-- source:email -->".toList⟩ (some "bot".toList)).1 = true ∧
      mailSent (outbound_run ⟨["helpdesk".toList], some "User".toList,
          "thanks!\n\n<!-- source:email -->".toList⟩ (some "bot".toList)
          "body".toList "<n@x>".toList true) = none := by
  refine ⟨by decide, ?_⟩
  have h := c3_marker_skipped ⟨["helpdesk".toList], some "User".toList,
    "thanks!\n\n<!-- source:email -->".toList⟩ (some "bot".toList)
    "body".toList "<n@x>".toList true (by decide)
  exact h

/-! ## Claim C4 — idempotence of the metadata append -/

/-- C4 (as stated, over both `update_issue_metadata` functions) is false:
the `github_to_email` variant appends **unconditionally**, so appending
the already-present token `"x"` duplicates it and changes the issue
body (the parsed token list goes from one to two entries). -/
theorem c4_counterexample :
    GithubToEmail.update_issue_metadata
        (format_metadata_comment "T".toList "a@b".toList [.jstr "x".toList])
        "x".toList ⟨some "T".toList, some "a@b".toList, [.jstr "x".toList]⟩
      ≠ format_metadata_comment "T".toList "a@b".toList [.jstr "x".toList] ∧
    (parse_metadata_from_issue_body
        (GithubToEmail.update_issue_metadata
          (format_metadata_comment "T".toList "a@b".toList [.jstr "x".toList])
          "x".toList ⟨some "T".toList, some "a@b".toList, [.jstr "x".toList]⟩)).map
        (fun md => md.message_ids.length) = some 2 := by
  constructor
  · simp only [GithubToEmail.update_issue_metadata, format_metadata_comment, jdumpArr,
      List.map_cons, List.map_nil, List.cons_append, List.nil_append, jdump_jstr, Option.elim]
    decide
  · simp only [GithubToEmail.update_issue_metadata, format_metadata_comment, jdumpArr,
      List.map_cons, List.map_nil, List.cons_append, List.nil_append, jdump_jstr, Option.elim]
    rfl

/-- C4 (amended): the `email_to_github` metadata append is idempotent — if
the id is already in the parsed `message_ids`, the body is returned
unchanged (no update call is made). -/
theorem c4_inbound_idempotent (body new_id : List Char) (md : Metadata)
    (hp : parse_metadata_from_issue_body body = some md)
    (hmem : memStr new_id md.message_ids = true) :
    EmailToGithub.update_issue_metadata body new_id = body := by
  unfold EmailToGithub.update_issue_metadata
  rw [hp]
  simp only [Option.elim]
  rw [if_pos hmem]

/-- Witness for C4. -/
theorem c4_witness :
    EmailToGithub.update_issue_metadata
        (format_metadata_comment "T".toList "a@b".toList [.jstr "x".toList]) "x".toList
      = format_metadata_comment "T".toList "a@b".toList [.jstr "x".toList] := by
  apply c4_inbound_idempotent _ _ ⟨some "T".toList, some "a@b".toList, [.jstr "x".toList]⟩
  · simp only [format_metadata_comment, jdumpArr, List.map_cons, List.map_nil, jdump_jstr]
    rfl
  · decide

/-! ## Claim C5 — the opt-in self-mention gate -/

/-- C5: with a configured (non-empty) customer-bot username, a comment
that passes the label, author and marker gates but does not mention
`@username` is skipped with the internal-comment reason, and `main`
exits 0 (a normal skip, not an error). -/
theorem c5_mention_gate (ev : CommentEvent) (u : List Char)
    (issueBody newId : List Char) (sendOk : Bool)
    (hu : u ≠ [])
    (hlabel : helpdeskLit ∈ ev.labels)
    (hbot : ev.author_type ≠ some botLit)
    (hmarker : has_email_marker ev.comment_body = false)
    (hmention : mentions_customer_bot ev.comment_body u = false) :
    should_skip_comment ev (some u)
        = (true, "Comment does not mention @".toList ++ u ++ " (internal comment)".toList) ∧
      exitCode (outbound_run ev (some u) issueBody newId sendOk) = 0 := by
  have hskip : should_skip_comment ev (some u)
      = (true, "Comment does not mention @".toList ++ u ++ " (internal comment)".toList) := by
    unfold should_skip_comment
    rw [if_neg (not_not_intro hlabel), if_neg hbot, if_neg (by simp [hmarker])]
    simp only [Option.elim]
    rw [if_neg (by simp [List.isEmpty_iff, hu]), if_neg (by simp [hmention])]
  refine ⟨hskip, ?_⟩
  rw [outbound_run_skipped (by rw [hskip])]
  rfl

/-- Witness for C5. -/
theorem c5_witness :
    should_skip_comment ⟨["helpdesk".toList], some "User".toList,
        "ship it next week".toList⟩ (some "helpbot".toList)
      = (true, "Comment does not mention @".toList ++ "helpbot".toList
          ++ " (internal comment)".toList) ∧
    exitCode (outbound_run ⟨["helpdesk".toList], some "User".toList,
        "ship it next week".toList⟩ (some "helpbot".toList)
        "body".toList "<n@x>".toList true) = 0 :=
  c5_mention_gate ⟨["helpdesk".toList], some "User".toList, "ship it next week".toList⟩
    "helpbot".toList "body".toList "<n@x>".toList true
    (by decide) (by decide) (by decide) (by decide) (by decide)

/-! ## Claim C6 — no metadata mutation on transmission failure -/

/-- C6: when `send_email` fails, `process_comment` reports failure and the
issue body (hence its embedded metadata) is exactly the input body; the
metadata update is only reached in the success branch. -/
theorem c6_failure_no_mutation (issueBody commentBody newId : List Char) :
    (process_comment issueBody commentBody newId false).1 = false ∧
      (process_comment issueBody commentBody newId false).2.1 = issueBody := by
  unfold process_comment
  cases parse_metadata_from_issue_body issueBody with
  | none => exact ⟨rfl, rfl⟩
  | some md =>
    rcases md with ⟨tid, fe, mids⟩
    cases fe with
    | none => exact ⟨rfl, rfl⟩
    | some customer =>
      by_cases hc : customer.isEmpty <;> simp [Option.elim, hc]

/-! ## Claim C7 — decoder error tolerance -/

/-- C7: decoding returns `none` exactly when no delimiter-bounded
`HELPDESK_METADATA` block matches; and when a block is found but its
`message_ids` field is missing (no `message_ids:…[…]` match inside the
block) or its captured array is not valid JSON, decoding still succeeds,
with the thread id and address parsed as usual and an empty token
list. -/
theorem c7_decode_tolerance (body : List Char) :
    (blockScan body = none → parse_metadata_from_issue_body body = none) ∧
    ∀ m, blockScan body = some m →
      (midsScan m = none ∨ ∃ g, midsScan m = some g ∧ jsonLoads g = none) →
      parse_metadata_from_issue_body body
        = some ⟨(fieldScan tidLit m).map strip, (fieldScan fromLit m).map strip, []⟩ := by
  constructor
  · intro h
    unfold parse_metadata_from_issue_body
    rw [h]
    rfl
  · intro m hm hbad
    unfold parse_metadata_from_issue_body
    rw [hm]
    simp only [Option.elim]
    rcases hbad with h | ⟨g, hg, hj⟩
    · rw [h]
    · rw [hg]
      simp only [Option.elim]
      rw [hj]

/-- Witness for C7: a block whose `message_ids` holds invalid JSON
(`[oops]`) decodes to the parsed fields with an empty token list; a body
with no block decodes to `none`. -/
theorem c7_witness :
    parse_metadata_from_issue_body "no block in here".toList = none ∧
    jsonLoads "[oops]".toList = none ∧
    parse_metadata_from_issue_body
        "pre\n<!-- HELPDESK_METADATA\nthread_id: A\nfrom: B\nmessage_ids: [oops]\n-->\npost".toList
      = some ⟨some "A".toList, some "B".toList, []⟩ := by
  refine ⟨(c7_decode_tolerance _).1 (by decide), by rfl, ?_⟩
  exact
    ((c7_decode_tolerance _).2 "thread_id: A\nfrom: B\nmessage_ids: [oops]".toList
      (by decide) (Or.inr ⟨"[oops]".toList, by decide, by rfl⟩)).trans (by rfl)

/-! ## Claim C8 — title formatting -/

/-- C8 (as stated) is false on the repeatability of the prefix strip: the
anchored substitution removes at most one `Re:`/`Fwd:` prefix, so
`formatTitle(42, "Re: Re: Fwd: X")` is `"[GH-0042] Re: Fwd: X"`, not the
claimed `"[GH-0042] X"`. -/
theorem c8_counterexample :
    format_issue_title 42 "Re: Re: Fwd: X".toList = "[GH-0042] Re: Fwd: X".toList ∧
      format_issue_title 42 "Re: Re: Fwd: X".toList ≠ "[GH-0042] X".toList := by
  refine ⟨by decide, by decide⟩

/-- C8 (amended): `format_issue_title` strips every `[GH-####]` tag and at
most **one** leading reply/forward prefix (case-insensitive), then
prepends the zero-padded tag; the spec's concrete example holds. -/
theorem c8_title_format :
    format_issue_title 42 "Re: [GH-0042] Login issue".toList
        = "[GH-0042] Login issue".toList ∧
      format_issue_title 42 "Re: Re: Fwd: X".toList = "[GH-0042] Re: Fwd: X".toList ∧
      format_issue_title 3 "fW: [GH-12][GH-0042] Help".toList = "[GH-0003] Help".toList := by
  refine ⟨by decide, by decide, by decide⟩

/-! ## Claim C9 — the tag prefix is not configurable -/

/-- C9 (as stated) is false: the tag machinery hardcodes `GH`.  A subject
tagged with the prefix `XY` is not recognized (resolution would fall
through to token matching), and the produced title carries `[GH-…]` and
leaves the foreign `[XY-…]` tag in place — the `TICKET_PREFIX`
environment value is read by `process_email` but used only in log
strings. -/
theorem c9_counterexample :
    extract_gh_number_from_subject "Re: [XY-0042] Login issue".toList = none ∧
      format_issue_title 42 "Re: [XY-0042] Login issue".toList
        = "[GH-0042] [XY-0042] Login issue".toList := by
  refine ⟨by decide, by decide⟩

/-- C9 (amended): every produced title starts with the fixed `[GH-NNNN] `
tag, and only `[GH-…]` subjects are recognized. -/
theorem c9_fixed_gh :
    (∀ (n : Nat) (s : List Char), ∃ t,
        format_issue_title n s = "[GH-".toList ++ pad4 n ++ "] ".toList ++ t) ∧
      extract_gh_number_from_subject "Re: [GH-0042] Login issue".toList = some 42 ∧
      extract_gh_number_from_subject "Re: [XY-0042] Login issue".toList = none := by
  refine ⟨fun n s => ⟨_, rfl⟩, by decide, by decide⟩

/-! ## Claim C10 — the sanitizer -/

/-- C10: the sanitizer's output never contains a raw `<` or `>` (both are
replaced by entities before the truncation step), and its length is at
most 50000 plus the length of the fixed truncation notice. -/
theorem c10_sanitize (body : List Char) :
    ('<' ∉ sanitize_email_body body ∧ '>' ∉ sanitize_email_body body) ∧
      (sanitize_email_body body).length ≤ 50000 + truncNotice.length := by
  unfold sanitize_email_body
  set b1 := replaceAll ['<'] "&lt;".toList body with hb1
  set b2 := replaceAll ['>'] "&gt;".toList b1 with hb2
  have hlt : '<' ∉ b2 := by
    intro hm
    rcases mem_replaceAll_single hm with h | ⟨h, _⟩
    · revert h; decide
    · rcases mem_replaceAll_single h with h' | ⟨_, h2⟩
      · revert h'; decide
      · exact h2 rfl
  have hgt : '>' ∉ b2 := by
    intro hm
    rcases mem_replaceAll_single hm with h | ⟨_, h2⟩
    · revert h; decide
    · exact h2 rfl
  by_cases hlen : 50000 < b2.length
  · rw [if_pos hlen]
    refine ⟨⟨?_, ?_⟩, ?_⟩
    · intro hm
      rcases List.mem_append.1 hm with h | h
      · exact hlt (List.take_subset _ _ h)
      · revert h; decide
    · intro hm
      rcases List.mem_append.1 hm with h | h
      · exact hgt (List.take_subset _ _ h)
      · revert h; decide
    · rw [List.length_append]
      exact Nat.add_le_add_right (by simp [List.length_take_le 50000 b2]) _
  · rw [if_neg hlen]
    exact ⟨⟨hlt, hgt⟩, Nat.le_trans (Nat.le_of_not_lt hlen) (Nat.le_add_right _ _)⟩

/-! ## Infrastructure for the codec round trip (claim C1)

The round-trip proof traces each of the four regex searches over the
encoded block.  The lemmas below are grouped as: general list facts,
character-class facts about valid inputs, facts about the characters of a
dumped JSON array, then one lemma per search. -/

theorem startsWith_self (w : List Char) : startsWith w w = true := by
  have h := startsWith_append_self w []
  rwa [List.append_nil] at h

theorem dropWhile_append_stop {p : Char → Bool} :
    ∀ (x : List Char) {c : Char} (z : List Char), p c = false →
      (x ++ c :: z).dropWhile p = x.dropWhile p ++ c :: z := by
  intro x
  induction x with
  | nil => intro c z hc; simp [List.dropWhile_cons, hc]
  | cons a x ih =>
    intro c z hc
    by_cases ha : p a
    · simp [List.dropWhile_cons, ha, ih z hc]
    · simp [List.dropWhile_cons, ha]

theorem mem_of_mem_dropWhile {p : Char → Bool} :
    ∀ {x : List Char} {c : Char}, c ∈ x.dropWhile p → c ∈ x := by
  intro x
  induction x with
  | nil => intro c h; simp at h
  | cons a x ih =>
    intro c h
    rw [List.dropWhile_cons] at h
    by_cases ha : p a
    · simp only [ha, if_true] at h
      exact List.mem_cons_of_mem _ (ih h)
    · simpa [ha] using h

theorem takeWhile_append_stop {p : Char → Bool} :
    ∀ (x : List Char) {c : Char} (z : List Char), (∀ d ∈ x, p d = true) → p c = false →
      (x ++ c :: z).takeWhile p = x := by
  intro x
  induction x with
  | nil => intro c z _ hc; simp [List.takeWhile_cons, hc]
  | cons a x ih =>
    intro c z hx hc
    have ha : p a = true := hx a (List.mem_cons_self _ _)
    simp [List.takeWhile_cons, ha, ih z (fun d hd => hx d (List.mem_cons_of_mem _ hd)) hc]

theorem strip_eq_self {s : List Char}
    (h1 : ∀ c, s.head? = some c → pySpace c = false)
    (h2 : ∀ c, s.getLast? = some c → pySpace c = false) : strip s = s := by
  cases hs : s with
  | nil => rfl
  | cons a t =>
    have ha : pySpace a = false := h1 a (by rw [hs]; rfl)
    have hne : (a :: t) ≠ [] := by simp
    obtain ⟨pre, cl, hsnoc⟩ : ∃ pre cl, a :: t = pre ++ [cl] :=
      ⟨(a :: t).dropLast, (a :: t).getLast hne, (List.dropLast_append_getLast hne).symm⟩
    have hcl : pySpace cl = false := by
      apply h2
      rw [hs, hsnoc, List.getLast?_concat]
    unfold strip
    rw [List.dropWhile_cons, if_neg (by simp [ha]), hsnoc, List.reverse_append]
    simp only [List.reverse_singleton, List.singleton_append, List.dropWhile_cons,
      hcl, if_neg (by simp [hcl] : ¬(pySpace cl = true))]
    simp

/-- Character-class facts about `cleanChar`, in propositional form. -/
theorem cleanChar_spec {c : Char} (h : cleanChar c = true) :
    0x20 ≤ c.toNat ∧ c.toNat ≤ 0x7e ∧ c ≠ '<' ∧ c ≠ '>' ∧ c ≠ '[' ∧ c ≠ ']' := by
  simp only [cleanChar, Bool.and_eq_true, decide_eq_true_eq, Bool.not_eq_true',
    decide_eq_false_iff_not] at h
  exact ⟨h.1.1.1.1.1, h.1.1.1.1.2, h.1.1.1.2, h.1.1.2, h.1.2, h.2⟩

theorem pySpace_false_of_clean {c : Char} (h : cleanChar c = true) (hne : c ≠ ' ') :
    pySpace c = false := by
  have h1 := (cleanChar_spec h).1
  simp only [pySpace, Bool.or_eq_false_iff, decide_eq_false_iff_not]
  refine ⟨⟨⟨⟨⟨hne, ?_⟩, ?_⟩, ?_⟩, ?_⟩, ?_⟩ <;>
    · intro he
      subst he
      exact absurd h1 (by decide)

theorem newline_not_of_clean {c : Char} (h : cleanChar c = true) : ¬(c = '\n') := by
  intro he
  subst he
  exact absurd (cleanChar_spec h).1 (by decide)

theorem mem_clean {s : List Char} (h : cleanStr s = true) {c : Char} (hc : c ∈ s) :
    cleanChar c = true := by
  rw [cleanStr, List.all_eq_true] at h
  exact h c hc

/-! Characters of a dumped string list: every character of
`joinItems (toks.map dumpStr)` is `"`/`\`/`,`/space or a token character
(for printable-ASCII tokens, `escChar` never emits a `\uXXXX` form). -/

theorem mem_escChar {c d : Char} (hc : cleanChar c = true) (hd : d ∈ escChar c) :
    d = '"' ∨ d = '\\' ∨ d = c := by
  obtain ⟨hlo, hhi, -⟩ := cleanChar_spec hc
  unfold escChar at hd
  split_ifs at hd with h1 h2 h3 h4 h5 h6 h7 h8
  · rw [List.mem_cons, List.mem_singleton] at hd
    rcases hd with h | h
    · exact Or.inr (Or.inl h)
    · exact Or.inl h
  · rw [List.mem_cons, List.mem_singleton] at hd
    rcases hd with h | h
    · exact Or.inr (Or.inl h)
    · exact Or.inr (Or.inl h)
  · subst h3; exact absurd hlo (by decide)
  · subst h4; exact absurd hlo (by decide)
  · subst h5; exact absurd hlo (by decide)
  · subst h6; exact absurd hlo (by decide)
  · subst h7; exact absurd hlo (by decide)
  · exfalso
    rcases Bool.or_eq_true_iff.1 h8 with h | h
    · exact absurd (of_decide_eq_true h) (by omega)
    · exact absurd (of_decide_eq_true h) (by omega)
  · simp only [List.mem_singleton] at hd
    exact Or.inr (Or.inr hd)

theorem mem_escStr {t : List Char} {d : Char} (ht : cleanStr t = true) (hd : d ∈ escStr t) :
    d = '"' ∨ d = '\\' ∨ d ∈ t := by
  induction t with
  | nil => simp [escStr] at hd
  | cons c t ih =>
    rw [escStr] at hd
    rcases List.mem_append.1 hd with h | h
    · rcases mem_escChar (mem_clean ht (List.mem_cons_self _ _)) h with h' | h' | h'
      · exact Or.inl h'
      · exact Or.inr (Or.inl h')
      · exact Or.inr (Or.inr (h' ▸ List.mem_cons_self _ _))
    · have ht' : cleanStr t = true := by
        rw [cleanStr, List.all_eq_true] at ht ⊢
        exact fun x hx => ht x (List.mem_cons_of_mem _ hx)
      rcases ih ht' h with h' | h' | h'
      · exact Or.inl h'
      · exact Or.inr (Or.inl h')
      · exact Or.inr (Or.inr (List.mem_cons_of_mem _ h'))

theorem mem_dumpStr {t : List Char} {d : Char} (ht : cleanStr t = true) (hd : d ∈ dumpStr t) :
    d = '"' ∨ d = '\\' ∨ d ∈ t := by
  rw [dumpStr] at hd
  rcases List.mem_cons.1 hd with h | h
  · exact Or.inl h
  · rcases List.mem_append.1 h with h' | h'
    · exact mem_escStr ht h'
    · simp only [List.mem_singleton] at h'
      exact Or.inl h'

theorem mem_joinItems_dump {toks : List (List Char)} {d : Char}
    (hcl : ∀ t ∈ toks, cleanStr t = true) (hd : d ∈ joinItems (toks.map dumpStr)) :
    d = '"' ∨ d = '\\' ∨ d = ',' ∨ d = ' ' ∨ ∃ t ∈ toks, d ∈ t := by
  induction toks with
  | nil => simp [joinItems] at hd
  | cons t ts ih =>
    cases ts with
    | nil =>
      simp only [List.map_cons, List.map_nil, joinItems] at hd
      rcases mem_dumpStr (hcl t (List.mem_cons_self _ _)) hd with h | h | h
      · exact Or.inl h
      · exact Or.inr (Or.inl h)
      · exact Or.inr (Or.inr (Or.inr (Or.inr ⟨t, List.mem_cons_self _ _, h⟩)))
    | cons t2 ts2 =>
      simp only [List.map_cons, joinItems] at hd
      rcases List.mem_append.1 hd with h | h
      · rcases mem_dumpStr (hcl t (List.mem_cons_self _ _)) h with h' | h' | h'
        · exact Or.inl h'
        · exact Or.inr (Or.inl h')
        · exact Or.inr (Or.inr (Or.inr (Or.inr ⟨t, List.mem_cons_self _ _, h'⟩)))
      · rcases List.mem_cons.1 h with h' | h'
        · exact Or.inr (Or.inr (Or.inl h'))
        · rcases List.mem_cons.1 h' with h'' | h''
          · exact Or.inr (Or.inr (Or.inr (Or.inl h'')))
          · have hcl' : ∀ x ∈ t2 :: ts2, cleanStr x = true :=
              fun x hx => hcl x (List.mem_cons_of_mem _ hx)
            rcases ih hcl' (by simpa [List.map_cons] using h'') with
              h3 | h3 | h3 | h3 | ⟨t3, ht3, h3⟩
            · exact Or.inl h3
            · exact Or.inr (Or.inl h3)
            · exact Or.inr (Or.inr (Or.inl h3))
            · exact Or.inr (Or.inr (Or.inr (Or.inl h3)))
            · exact Or.inr (Or.inr (Or.inr (Or.inr ⟨t3, List.mem_cons_of_mem _ ht3, h3⟩)))

/-! The outer block pattern on the encoded body: `\s+-->` cannot match
strictly inside the block content (which contains no `>` and ends in
`]`), so the lazy group runs to the closing `\n-->`. -/

theorem sw_arrow_false {u : List Char} (hgt : '>' ∉ u) (z : List Char) :
    startsWith arrowLit (u ++ ']' :: z) = false := by
  by_contra hc
  rw [Bool.not_eq_false] at hc
  rcases startsWith_append_cases hc with h | ⟨h1, h2⟩
  · obtain ⟨r, hr⟩ := eq_append_of_startsWith h
    apply hgt
    rw [hr]
    exact List.mem_append_left _ (by decide)
  · obtain ⟨r, hr⟩ := eq_append_of_startsWith h1
    have hdrop : arrowLit.drop u.length = r := by rw [hr, List.drop_left]
    rw [hdrop] at h2
    cases r with
    | nil =>
      apply hgt
      rw [List.append_nil] at hr
      rw [← hr]
      decide
    | cons d r' =>
      have hd := startsWith_head h2
      simp only [List.head?_cons, Option.some.injEq] at hd
      have hdm : d ∈ arrowLit := by
        rw [hr]
        exact List.mem_append_right _ (List.mem_cons_self _ _)
      rw [← hd] at hdm
      revert hdm
      decide

theorem wsArrow_false_seg {e : List Char} (hgt : '>' ∉ e) :
    wsArrow (e ++ ']' :: '\n' :: arrowLit) = false := by
  cases e with
  | nil => rfl
  | cons c e' =>
    rw [List.cons_append, wsArrow]
    by_cases hc : pySpace c
    · rw [dropWhile_append_stop e' _ (by decide : pySpace ']' = false)]
      rw [sw_arrow_false
        (fun hm => hgt (List.mem_cons_of_mem _ (mem_of_mem_dropWhile hm))) _]
      simp
    · simp [hc]

theorem lazyScan_concat {x y : List Char} (hy : wsArrow y = true)
    (hx : ∀ p, p < x.length → wsArrow (x.drop p ++ y) = false) :
    lazyScan (x ++ y) = some x := by
  induction x with
  | nil =>
    cases y with
    | nil => simp [wsArrow] at hy
    | cons c t => simp [lazyScan, hy]
  | cons c x ih =>
    have h0 : wsArrow (c :: (x ++ y)) = false := by simpa using hx 0 (by simp)
    rw [List.cons_append, lazyScan, if_neg (by simp [h0])]
    rw [ih fun p hp => by simpa using hx (p + 1) (by simpa using Nat.succ_lt_succ hp)]
    rfl

/-! The field patterns: a label cannot start strictly inside the earlier
part of the block content. -/

theorem sw_false_head_notin {c0 : Char} (w' : List Char) {x : List Char} (rest : List Char)
    {p : Nat} (hp : p < x.length) (hc : c0 ∉ x) :
    startsWith (c0 :: w') (x.drop p ++ rest) = false := by
  by_contra h
  rw [Bool.not_eq_false] at h
  have hne : x.drop p ≠ [] := by
    intro he
    have hl := List.length_drop p x
    rw [he] at hl
    simp at hl
    omega
  cases hxp : x.drop p with
  | nil => exact hne hxp
  | cons d u =>
    rw [hxp, List.cons_append] at h
    have hd := startsWith_head h
    simp only [List.head?_cons, Option.some.injEq] at hd
    apply hc
    rw [← hd]
    exact List.drop_subset p x (hxp ▸ List.mem_cons_self _ _)

theorem sw_false_inside_line {w seg : List Char} (rest' : List Char) (hnl : '\n' ∉ w)
    (hni : containsSub w seg = false) {p : Nat} :
    startsWith w (seg.drop p ++ '\n' :: rest') = false := by
  by_contra h
  rw [Bool.not_eq_false] at h
  rcases startsWith_append_cases h with h1 | ⟨h1, h2⟩
  · have hf := startsWith_drop_false_of_not_containsSub hni p
    rw [h1] at hf
    exact Bool.noConfusion hf
  · cases hdr : w.drop (seg.drop p).length with
    | nil =>
      obtain ⟨r, hr⟩ := eq_append_of_startsWith h1
      have hrl : w.length = (seg.drop p).length + r.length := by
        rw [hr, List.length_append]
      have hwl : w.length - (seg.drop p).length = 0 := by
        have h' := congrArg List.length hdr
        rwa [List.length_drop] at h'
      have hr0 : r = [] := by
        rw [← List.length_eq_zero]
        omega
      subst hr0
      rw [List.append_nil] at hr
      have hf := startsWith_drop_false_of_not_containsSub hni p
      rw [← hr, startsWith_self] at hf
      exact Bool.noConfusion hf
    | cons d r' =>
      rw [hdr] at h2
      have hd := startsWith_head h2
      simp only [List.head?_cons, Option.some.injEq] at hd
      apply hnl
      rw [hd]
      exact List.drop_subset _ _ (hdr ▸ List.mem_cons_self _ _)

/-! The `message_ids:` pattern: wherever the label might occur before its
real position, the next non-whitespace character is not `'['` (there is a
later `':'` in the way and no `'['` occurs before the array), so
`bracketGroup` fails there and the search moves on. -/

theorem bracketGroup_none_parts :
    ∀ (u : List Char) {w : List Char}, '[' ∉ u → bracketGroup (u ++ ':' :: w) = none := by
  intro u
  induction u with
  | nil =>
    intro w _
    rfl
  | cons a u ih =>
    intro w ha
    rw [List.cons_append]
    by_cases hws : pySpace a
    · have h1 : bracketGroup (a :: (u ++ ':' :: w)) = bracketGroup (u ++ ':' :: w) := by
        unfold bracketGroup
        rw [List.dropWhile_cons, if_pos hws]
      rw [h1]
      exact ih fun hm => ha (List.mem_cons_of_mem _ hm)
    · have ha' : a ≠ '[' := fun he => ha (he ▸ List.mem_cons_self _ _)
      unfold bracketGroup
      rw [List.dropWhile_cons, if_neg (by simp [hws])]
      split
      · next heq =>
        exact absurd (List.head_eq_of_cons_eq heq.symm).symm ha'
      · rfl

theorem takeToBracket_concat :
    ∀ (u : List Char) (z : List Char), ']' ∉ u →
      takeToBracket (u ++ ']' :: z) = some (u ++ [']']) := by
  intro u
  induction u with
  | nil => intro z _; simp [takeToBracket]
  | cons a u ih =>
    intro z ha
    have ha' : a ≠ ']' := fun he => ha (he ▸ List.mem_cons_self _ _)
    rw [List.cons_append, takeToBracket, if_neg ha',
      ih z fun hm => ha (List.mem_cons_of_mem _ hm)]
    rfl

/-! The JSON round trip: `json.loads` inverts `json.dumps` on the encoded
token array (printable-ASCII tokens, so the only escapes are `\"` and
`\\`). -/

theorem cleanStr_cons_iff {c : Char} {t : List Char} :
    cleanStr (c :: t) = true ↔ cleanChar c = true ∧ cleanStr t = true := by
  simp [cleanStr, List.all_cons]

theorem escChar_clean_plain {c : Char} (h : cleanChar c = true) (h1 : c ≠ '"')
    (h2 : c ≠ '\\') : escChar c = [c] := by
  obtain ⟨hlo, hhi, -⟩ := cleanChar_spec h
  unfold escChar
  rw [if_neg h1, if_neg h2,
    if_neg (by intro he; subst he; exact absurd hlo (by decide)),
    if_neg (by intro he; subst he; exact absurd hlo (by decide)),
    if_neg (by intro he; subst he; exact absurd hlo (by decide)),
    if_neg (by intro he; subst he; exact absurd hlo (by decide)),
    if_neg (by intro he; subst he; exact absurd hlo (by decide)),
    if_neg (by simp only [Bool.or_eq_true, decide_eq_true_eq, not_or]; omega)]

theorem length_escStr : ∀ t : List Char, t.length ≤ (escStr t).length := by
  intro t
  induction t with
  | nil => simp [escStr]
  | cons c t ih =>
    have hu : 1 ≤ (uEsc c).length := by
      unfold uEsc
      dsimp only
      split_ifs <;> simp
    have h1 : 1 ≤ (escChar c).length := by
      unfold escChar
      split_ifs <;> simp [hu]
    rw [escStr, List.length_append, List.length_cons]
    omega

theorem parseJStrAux_round {t : List Char} (htc : cleanStr t = true) :
    ∀ (f : Nat) (z : List Char), t.length ≤ f →
      parseJStrAux (f + 1) (escStr t ++ '"' :: z) = some (t, z) := by
  induction t with
  | nil =>
    intro f z _
    rw [escStr, List.nil_append]
    rfl
  | cons c t ih =>
    intro f z hf
    obtain ⟨hc, htc'⟩ := cleanStr_cons_iff.1 htc
    obtain ⟨f', rfl⟩ : ∃ f', f = f' + 1 := ⟨f - 1, by simp at hf; omega⟩
    have hfr : t.length ≤ f' := by simp at hf; omega
    rw [escStr]
    by_cases h1 : c = '"'
    · subst h1
      have hstep : parseJStrAux (f' + 1 + 1) (escChar '"' ++ (escStr t ++ '"' :: z))
          = (parseJStrAux (f' + 1) (escStr t ++ '"' :: z)).map
              (fun p => ('"' :: p.1, p.2)) := rfl
      rw [List.append_assoc, hstep, ih htc' f' z hfr]
      rfl
    · by_cases h2 : c = '\\'
      · subst h2
        have hstep : parseJStrAux (f' + 1 + 1) (escChar '\\' ++ (escStr t ++ '"' :: z))
            = (parseJStrAux (f' + 1) (escStr t ++ '"' :: z)).map
                (fun p => ('\\' :: p.1, p.2)) := rfl
        rw [List.append_assoc, hstep, ih htc' f' z hfr]
        rfl
      · rw [escChar_clean_plain hc h1 h2, List.append_assoc, List.singleton_append]
        have hstep : parseJStrAux (f' + 1 + 1) (c :: (escStr t ++ '"' :: z))
            = if c = '"' then some ([], escStr t ++ '"' :: z)
              else if c = '\\' then escBranch (parseJStrAux (f' + 1)) (escStr t ++ '"' :: z)
              else if c.toNat < 0x20 then none
              else (parseJStrAux (f' + 1) (escStr t ++ '"' :: z)).map
                  (fun p => (c :: p.1, p.2)) := rfl
        rw [hstep, if_neg h1, if_neg h2,
          if_neg (by have := (cleanChar_spec hc).1; omega),
          ih htc' f' z hfr]
        rfl

theorem parseJStr_dump {t : List Char} (ht : cleanStr t = true) (z : List Char) :
    parseJStr (escStr t ++ '"' :: z) = some (t, z) := by
  unfold parseJStr
  exact parseJStrAux_round ht _ z
    (by rw [List.length_append]; have := length_escStr t; omega)

theorem parseVal_dumpStr {t : List Char} (ht : cleanStr t = true) (g : Nat) (z : List Char) :
    parseVal (g + 1) (dumpStr t ++ z) = some (.jstr t, z) := by
  have hshape : dumpStr t ++ z = '"' :: (escStr t ++ '"' :: z) := by
    simp [dumpStr]
  rw [hshape]
  have hstep : parseVal (g + 1) ('"' :: (escStr t ++ '"' :: z))
      = (parseJStr (escStr t ++ '"' :: z)).map (fun p => (Json.jstr p.1, p.2)) := rfl
  rw [hstep, parseJStr_dump ht]
  rfl

theorem joinItems_dump_head (a : List Char) (l : List (List Char)) :
    ∃ w, joinItems ((a :: l).map dumpStr) = '"' :: w := by
  cases l with
  | nil => exact ⟨escStr a ++ ['"'], rfl⟩
  | cons b l' =>
    exact ⟨(escStr a ++ ['"']) ++ ',' :: ' ' :: joinItems ((b :: l').map dumpStr), rfl⟩

theorem itemsLoop_dump (g : Nat) :
    ∀ (toks : List (List Char)) (f : Nat) (z : List Char),
      (∀ t ∈ toks, cleanStr t = true) → toks ≠ [] →
      itemsLoop (parseVal (g + 1)) (f + toks.length) (joinItems (toks.map dumpStr) ++ ']' :: z)
        = some (toks.map .jstr, z) := by
  intro toks
  induction toks with
  | nil => intro f z _ h; exact absurd rfl h
  | cons t ts ih =>
    intro f z hcl _
    have hct : cleanStr t = true := hcl t (List.mem_cons_self _ _)
    cases ts with
    | nil =>
      show itemsLoop (parseVal (g + 1)) (f + 1) (dumpStr t ++ ']' :: z) = some ([.jstr t], z)
      have hstep : itemsLoop (parseVal (g + 1)) (f + 1) (dumpStr t ++ ']' :: z)
          = match parseVal (g + 1) (dumpStr t ++ ']' :: z) with
            | none => none
            | some (v, r) =>
              match r.dropWhile jsonWs with
              | ',' :: r2 =>
                (itemsLoop (parseVal (g + 1)) f (r2.dropWhile jsonWs)).map
                  (fun p => (v :: p.1, p.2))
              | ']' :: r2 => some ([v], r2)
              | _ => none := rfl
      rw [hstep, parseVal_dumpStr hct g (']' :: z)]
      rfl
    | cons t2 ts2 =>
      have hj : joinItems ((t :: t2 :: ts2).map dumpStr) ++ ']' :: z
          = dumpStr t ++ ',' :: ' ' :: (joinItems ((t2 :: ts2).map dumpStr) ++ ']' :: z) := by
        simp [joinItems, List.append_assoc]
      rw [hj]
      show itemsLoop (parseVal (g + 1)) (f + ts2.length + 1 + 1)
          (dumpStr t ++ ',' :: ' ' :: (joinItems ((t2 :: ts2).map dumpStr) ++ ']' :: z))
        = some (Json.jstr t :: (t2 :: ts2).map .jstr, z)
      have hstep : itemsLoop (parseVal (g + 1)) (f + ts2.length + 1 + 1)
          (dumpStr t ++ ',' :: ' ' :: (joinItems ((t2 :: ts2).map dumpStr) ++ ']' :: z))
          = match parseVal (g + 1)
              (dumpStr t ++ ',' :: ' ' :: (joinItems ((t2 :: ts2).map dumpStr) ++ ']' :: z)) with
            | none => none
            | some (v, r) =>
              match r.dropWhile jsonWs with
              | ',' :: r2 =>
                (itemsLoop (parseVal (g + 1)) (f + ts2.length + 1) (r2.dropWhile jsonWs)).map
                  (fun p => (v :: p.1, p.2))
              | ']' :: r2 => some ([v], r2)
              | _ => none := rfl
      rw [hstep, parseVal_dumpStr hct g _]
      obtain ⟨w, hw⟩ := joinItems_dump_head t2 ts2
      have hdw : ((' ' :: (joinItems ((t2 :: ts2).map dumpStr) ++ ']' :: z)).dropWhile jsonWs)
          = joinItems ((t2 :: ts2).map dumpStr) ++ ']' :: z := by
        rw [List.dropWhile_cons, if_pos (by decide), hw, List.cons_append,
          List.dropWhile_cons, if_neg (by decide)]
      show (itemsLoop (parseVal (g + 1)) (f + ts2.length + 1)
          ((' ' :: (joinItems ((t2 :: ts2).map dumpStr) ++ ']' :: z)).dropWhile jsonWs)).map
            (fun p => (Json.jstr t :: p.1, p.2))
        = some (Json.jstr t :: (t2 :: ts2).map .jstr, z)
      have hih := ih f z (fun x hx => hcl x (List.mem_cons_of_mem _ hx)) (by simp)
      rw [List.length_cons, ← Nat.add_assoc] at hih
      rw [hdw, hih]
      rfl

theorem length_joinItems_dump :
    ∀ toks : List (List Char), toks.length ≤ (joinItems (toks.map dumpStr)).length := by
  intro toks
  induction toks with
  | nil => simp [joinItems]
  | cons t ts ih =>
    have hdl : 1 ≤ (dumpStr t).length := by simp [dumpStr]
    cases ts with
    | nil => simp [joinItems, dumpStr, hdl]
    | cons t2 ts2 =>
      have hstep : joinItems ((t :: t2 :: ts2).map dumpStr)
          = dumpStr t ++ ',' :: ' ' :: joinItems ((t2 :: ts2).map dumpStr) := by
        simp [joinItems]
      rw [hstep, List.length_append]
      simp only [List.length_cons] at ih ⊢
      omega

theorem jsonLoads_dumpArr {toks : List (List Char)}
    (hcl : ∀ t ∈ toks, cleanStr t = true) :
    jsonLoads ('[' :: joinItems (toks.map dumpStr) ++ [']'])
      = some (.jarr (toks.map .jstr)) := by
  cases toks with
  | nil => rfl
  | cons t ts =>
    obtain ⟨w, hw⟩ := joinItems_dump_head t ts
    set X := joinItems ((t :: ts).map dumpStr) ++ [']'] with hX
    have hXc : X = '"' :: (w ++ [']']) := by rw [hX, hw]; rfl
    have hlen1 : 1 ≤ ('[' :: X).length := by simp
    have hlen2 : (t :: ts).length ≤ ('[' :: X).length := by
      have h := length_joinItems_dump (t :: ts)
      rw [hX]
      simp only [List.length_cons, List.length_append, List.length_nil] at h ⊢
      omega
    set L := ('[' :: X).length with hL
    have hval : parseVal (L + 1) ('[' :: X)
        = (itemsLoop (parseVal L) L (X.dropWhile jsonWs)).map
            (fun p => (Json.jarr p.1, p.2)) := by
      have hstep : parseVal (L + 1) ('[' :: X)
          = (match X.dropWhile jsonWs with
             | ']' :: r => some (.jarr [], r)
             | _ => (itemsLoop (parseVal L) L (X.dropWhile jsonWs)).map
                 (fun p => (Json.jarr p.1, p.2))) := rfl
      rw [hstep, hXc, List.dropWhile_cons, if_neg (by decide)]
      split
      · rename_i r heq
        simp at heq
      · rfl
    have hdw : X.dropWhile jsonWs = X := by
      rw [hXc, List.dropWhile_cons, if_neg (by decide)]
    obtain ⟨g, hg⟩ : ∃ g, L = g + 1 := ⟨L - 1, by omega⟩
    obtain ⟨f, hf⟩ : ∃ f, L = f + (t :: ts).length := ⟨L - (t :: ts).length, by omega⟩
    have hloop : itemsLoop (parseVal L) L (X.dropWhile jsonWs)
        = some ((t :: ts).map .jstr, []) := by
      rw [hdw, hX]
      nth_rewrite 2 [hf]
      rw [hg]
      exact itemsLoop_dump g (t :: ts) f [] hcl (by simp)
    show jsonLoads ('[' :: X) = some (.jarr ((t :: ts).map .jstr))
    have hload : jsonLoads ('[' :: X)
        = match parseVal (('[' :: X).length + 1) (('[' :: X).dropWhile jsonWs) with
          | some (v, r) => if (r.dropWhile jsonWs).isEmpty then some v else none
          | none => none := rfl
    rw [hload]
    have hdw2 : ('[' :: X).dropWhile jsonWs = '[' :: X := by
      rw [List.dropWhile_cons, if_neg (by decide)]
    rw [hdw2, ← hL, hval, hloop]
    rfl

/-! ## Claim C1 — the metadata codec round trip

Assembling the pieces: the encoded body is the block literal around the
content `M`, each search finds its intended position in `M`, and the
JSON round trip recovers the token list.  First small general helpers,
then one lemma per search, then the claim theorems. -/

theorem jdumpArr_jstr (toks : List (List Char)) :
    jdumpArr (toks.map .jstr) = '[' :: joinItems (toks.map dumpStr) ++ [']'] := by
  have h : (toks.map Json.jstr).map jdump = toks.map dumpStr := by
    rw [List.map_map]
    exact List.map_congr_left fun t _ => jdump_jstr t
  rw [jdumpArr, h]

theorem not_mem_clean_of_special {s : List Char} (h : cleanStr s = true) {c : Char}
    (hc : cleanChar c = false) : c ∉ s := by
  intro hm
  rw [mem_clean h hm] at hc
  exact Bool.noConfusion hc

theorem not_mem_joinItems_dump {toks : List (List Char)}
    (hcl : ∀ t ∈ toks, cleanStr t = true) {c : Char} (hc : cleanChar c = false)
    (h1 : c ≠ '"') (h2 : c ≠ '\\') (h3 : c ≠ ',') (h4 : c ≠ ' ') :
    c ∉ joinItems (toks.map dumpStr) := by
  intro hm
  rcases mem_joinItems_dump hcl hm with h | h | h | h | ⟨t, ht, hmt⟩
  · exact h1 h
  · exact h2 h
  · exact h3 h
  · exact h4 h
  · exact not_mem_clean_of_special (hcl t ht) hc hmt

theorem mem_of_head_eq {c : Char} {s : List Char} (h : s.head? = some c) : c ∈ s := by
  cases s with
  | nil => simp at h
  | cons d t =>
    simp only [List.head?_cons, Option.some.injEq] at h
    exact h ▸ List.mem_cons_self _ _

theorem strip_eq_self_clean {s : List Char} (hs : cleanStr s = true)
    (hh : s.head? ≠ some ' ') (hl : s.getLast? ≠ some ' ') : strip s = s := by
  apply strip_eq_self
  · intro c hc
    exact pySpace_false_of_clean (mem_clean hs (mem_of_head_eq hc))
      (fun he => hh (by rw [← he]; exact hc))
  · intro c hc
    exact pySpace_false_of_clean (mem_clean hs (List.mem_of_mem_getLast? (by rw [hc]; rfl)))
      (fun he => hl (by rw [← he]; exact hc))

theorem drop_append_le {x : List Char} (z : List Char) {p : Nat} (hp : p ≤ x.length) :
    (x ++ z).drop p = x.drop p ++ z := by
  rw [List.drop_append_eq_append_drop, Nat.sub_eq_zero_of_le hp, List.drop_zero]

theorem drop_append_ge {x : List Char} (z : List Char) {p : Nat} (hp : x.length ≤ p) :
    (x ++ z).drop p = z.drop (p - x.length) := by
  rw [List.drop_append_eq_append_drop, List.drop_eq_nil_of_le hp, List.nil_append]

theorem scanFor_cons_none {α : Type} {f : List Char → Option α} {c : Char} {t : List Char}
    (h : f (c :: t) = none) : scanFor f (c :: t) = scanFor f t := by
  rw [show scanFor f (c :: t) = (f (c :: t)).elim (scanFor f t) some from rfl, h]
  rfl

theorem fieldAt_none {lbl s : List Char} (h : startsWith lbl s = false) :
    fieldAt lbl s = none := by
  unfold fieldAt
  rw [if_neg (by simp [h])]

theorem midsAt_none_head {s : List Char} (h : startsWith midsLit s = false) :
    midsAt s = none := by
  unfold midsAt
  rw [if_neg (by simp [h])]

theorem midsAt_none {s : List Char} (h : bracketGroup (s.drop midsLit.length) = none) :
    midsAt s = none := by
  unfold midsAt
  by_cases hsw : startsWith midsLit s = true
  · rw [if_pos hsw]
    exact h
  · rw [if_neg hsw]

theorem dropWhile_lit2 {p : Char → Bool} {c : Char} (u x y : List Char) (hc : p c = false) :
    (((c :: u) ++ x) ++ y).dropWhile p = ((c :: u) ++ x) ++ y := by
  rw [List.cons_append, List.cons_append, List.dropWhile_cons, if_neg (by simp [hc])]

theorem matchInner_of_lazyScan {c : Char} {t g : List Char} (hc : pySpace c = true)
    (hl : lazyScan (t.dropWhile pySpace) = some g) :
    matchInner (c :: t) = some g := by
  simp only [matchInner]
  rw [if_pos hc, hl]

theorem lineGroup_clean {s rest : List Char} (hs : cleanStr s = true)
    (hne : s ≠ []) (hh : s.head? ≠ some ' ') :
    lineGroup (' ' :: (s ++ '\n' :: rest)) = some s := by
  obtain ⟨c, t, rfl⟩ : ∃ c t, s = c :: t := by
    cases s with
    | nil => exact absurd rfl hne
    | cons c t => exact ⟨c, t, rfl⟩
  have hc : cleanChar c = true := (cleanStr_cons_iff.1 hs).1
  have hps : pySpace c = false :=
    pySpace_false_of_clean hc (fun he => hh (by rw [he]; rfl))
  have hall : ∀ d ∈ c :: t, (fun ch => !(ch = '\n' : Bool)) d = true := by
    intro d hd
    simp only [Bool.not_eq_true', decide_eq_false_iff_not]
    exact newline_not_of_clean (mem_clean hs hd)
  unfold lineGroup
  rw [List.cons_append, List.dropWhile_cons, if_pos (by decide), List.dropWhile_cons,
    if_neg (by simp [hps])]
  show some ((c :: (t ++ '\n' :: rest)).takeWhile (fun ch => !(ch = '\n' : Bool)))
      = some (c :: t)
  rw [← List.cons_append, takeWhile_append_stop (c :: t) rest hall (by decide)]

/-! The three searches on the canonical block content. -/

theorem gt_not_mem_content {tid frm : List Char} {toks : List (List Char)}
    (htid : cleanStr tid = true) (hfrm : cleanStr frm = true)
    (hcl : ∀ t ∈ toks, cleanStr t = true) :
    '>' ∉ "thread_id: ".toList ++ (tid ++ ("\nfrom: ".toList ++ (frm
        ++ ("\nmessage_ids: ".toList ++ '[' :: joinItems (toks.map dumpStr))))) := by
  intro hm
  simp only [List.mem_append, List.mem_cons] at hm
  rcases hm with hm | hm | hm | hm | hm | hm | hm
  · exact absurd hm (by decide)
  · exact not_mem_clean_of_special htid (by decide) hm
  · exact absurd hm (by decide)
  · exact not_mem_clean_of_special hfrm (by decide) hm
  · exact absurd hm (by decide)
  · exact absurd hm (by decide)
  · exact not_mem_joinItems_dump hcl (by decide) (by decide) (by decide) (by decide)
      (by decide) hm

theorem lb_not_mem_pre {tid frm : List Char} (htid : cleanStr tid = true)
    (hfrm : cleanStr frm = true) :
    '[' ∉ ("thread_id: ".toList ++ (tid ++ ("\nfrom: ".toList ++ frm)))
        ++ "\nmessage_ids".toList := by
  intro hm
  simp only [List.mem_append] at hm
  rcases hm with (hm | hm | hm | hm) | hm
  · exact absurd hm (by decide)
  · exact not_mem_clean_of_special htid (by decide) hm
  · exact absurd hm (by decide)
  · exact not_mem_clean_of_special hfrm (by decide) hm
  · exact absurd hm (by decide)

theorem blockScan_shape {tid frm : List Char} {toks : List (List Char)}
    (htid : cleanStr tid = true) (hfrm : cleanStr frm = true)
    (hcl : ∀ t ∈ toks, cleanStr t = true) :
    blockScan (metaLit ++ '\n' ::
        (("thread_id: ".toList ++ (tid ++ ("\nfrom: ".toList ++ (frm
            ++ ("\nmessage_ids: ".toList
              ++ ('[' :: joinItems (toks.map dumpStr) ++ [']']))))))
          ++ '\n' :: arrowLit))
      = some ("thread_id: ".toList ++ (tid ++ ("\nfrom: ".toList ++ (frm
          ++ ("\nmessage_ids: ".toList
            ++ ('[' :: joinItems (toks.map dumpStr) ++ [']'])))))) := by
  unfold blockScan
  apply scanFor_of_some
  unfold blockAt
  rw [if_pos (startsWith_append_self _ _), List.drop_left]
  apply matchInner_of_lazyScan (by decide)
  rw [show "thread_id: ".toList = 't' :: "hread_id: ".toList from rfl]
  rw [dropWhile_lit2 _ _ _ (by decide : pySpace 't' = false)]
  refine lazyScan_concat (by decide) ?_
  intro p hp
  have hsplit : ('t' :: "hread_id: ".toList) ++ (tid ++ ("\nfrom: ".toList ++ (frm
        ++ ("\nmessage_ids: ".toList ++ ('[' :: joinItems (toks.map dumpStr) ++ [']'])))))
      = (('t' :: "hread_id: ".toList) ++ (tid ++ ("\nfrom: ".toList ++ (frm
          ++ ("\nmessage_ids: ".toList ++ '[' :: joinItems (toks.map dumpStr)))))) ++ [']'] := by
    simp only [List.append_assoc, List.cons_append]
  rw [hsplit] at hp ⊢
  have hone : ([']'] : List Char).length = 1 := rfl
  rw [List.length_append, hone] at hp
  have hple : p ≤ (('t' :: "hread_id: ".toList) ++ (tid ++ ("\nfrom: ".toList ++ (frm
      ++ ("\nmessage_ids: ".toList ++ '[' :: joinItems (toks.map dumpStr)))))).length := by
    omega
  rw [drop_append_le _ hple, List.append_assoc, List.singleton_append]
  exact wsArrow_false_seg
    (fun hm => gt_not_mem_content htid hfrm hcl (List.drop_subset _ _ hm))

theorem fieldScan_tid_gen {tid Z : List Char} (htid : cleanStr tid = true)
    (htne : tid ≠ []) (hth : tid.head? ≠ some ' ') :
    fieldScan tidLit (tidLit ++ (' ' :: (tid ++ '\n' :: Z))) = some tid := by
  unfold fieldScan
  apply scanFor_of_some
  unfold fieldAt
  rw [if_pos (startsWith_append_self _ _), List.drop_left]
  exact lineGroup_clean htid htne hth

theorem fieldScan_from_gen {tid frm Z : List Char}
    (hsub : containsSub fromLit tid = false)
    (hfrm : cleanStr frm = true) (hfne : frm ≠ []) (hfh : frm.head? ≠ some ' ') :
    fieldScan fromLit
        ("thread_id: ".toList ++ (tid ++ ("\nfrom: ".toList ++ (frm ++ '\n' :: Z))))
      = some frm := by
  have hfail : ∀ p, p < ("thread_id: ".toList ++ tid).length →
      fieldAt fromLit ((("thread_id: ".toList ++ tid)
          ++ ("\nfrom: ".toList ++ (frm ++ '\n' :: Z))).drop p) = none := by
    intro p hp
    apply fieldAt_none
    rw [List.length_append] at hp
    by_cases hp1 : p < ("thread_id: ".toList).length
    · rw [List.append_assoc, drop_append_le _ (Nat.le_of_lt hp1)]
      rw [show fromLit = 'f' :: "rom:".toList from rfl]
      exact sw_false_head_notin _ _ hp1 (by decide)
    · rw [Nat.not_lt] at hp1
      rw [List.append_assoc, drop_append_ge _ hp1]
      have hq : p - ("thread_id: ".toList).length < tid.length := by omega
      rw [drop_append_le _ (Nat.le_of_lt hq)]
      rw [show "\nfrom: ".toList ++ (frm ++ '\n' :: Z)
          = '\n' :: ("from: ".toList ++ (frm ++ '\n' :: Z)) from rfl]
      exact sw_false_inside_line _ (by decide) hsub
  rw [show "thread_id: ".toList ++ (tid ++ ("\nfrom: ".toList ++ (frm ++ '\n' :: Z)))
      = ("thread_id: ".toList ++ tid) ++ ("\nfrom: ".toList ++ (frm ++ '\n' :: Z)) from
      (List.append_assoc _ _ _).symm]
  unfold fieldScan
  rw [scanFor_append_skip hfail]
  rw [show "\nfrom: ".toList ++ (frm ++ '\n' :: Z)
      = '\n' :: ("from: ".toList ++ (frm ++ '\n' :: Z)) from rfl]
  rw [scanFor_cons_none (fieldAt_none
    (by rw [show fromLit = 'f' :: "rom:".toList from rfl, startsWith_cons]; simp))]
  rw [show "from: ".toList ++ (frm ++ '\n' :: Z)
      = fromLit ++ (' ' :: (frm ++ '\n' :: Z)) from rfl]
  apply scanFor_of_some
  unfold fieldAt
  rw [if_pos (startsWith_append_self _ _), List.drop_left]
  exact lineGroup_clean hfrm hfne hfh

theorem midsScan_gen {tid frm : List Char} {toks : List (List Char)}
    (htid : cleanStr tid = true) (hfrm : cleanStr frm = true)
    (hcl : ∀ t ∈ toks, cleanStr t = true) :
    midsScan ("thread_id: ".toList ++ (tid ++ ("\nfrom: ".toList ++ (frm
        ++ ("\nmessage_ids: ".toList ++ ('[' :: joinItems (toks.map dumpStr) ++ [']']))))))
      = some ('[' :: joinItems (toks.map dumpStr) ++ [']']) := by
  have hfail : ∀ p, p < ("thread_id: ".toList ++ (tid ++ ("\nfrom: ".toList ++ frm))).length →
      midsAt ((("thread_id: ".toList ++ (tid ++ ("\nfrom: ".toList ++ frm)))
          ++ ("\nmessage_ids: ".toList
            ++ ('[' :: joinItems (toks.map dumpStr) ++ [']']))).drop p) = none := by
    intro p hp
    apply midsAt_none
    have hV : ("thread_id: ".toList ++ (tid ++ ("\nfrom: ".toList ++ frm)))
          ++ ("\nmessage_ids: ".toList ++ ('[' :: joinItems (toks.map dumpStr) ++ [']']))
        = (("thread_id: ".toList ++ (tid ++ ("\nfrom: ".toList ++ frm)))
            ++ "\nmessage_ids".toList)
          ++ ':' :: (' ' :: ('[' :: joinItems (toks.map dumpStr) ++ [']'])) := by
      simp only [List.append_assoc]
      rfl
    rw [hV, List.drop_drop]
    have hlen : p + midsLit.length
        ≤ (("thread_id: ".toList ++ (tid ++ ("\nfrom: ".toList ++ frm)))
            ++ "\nmessage_ids".toList).length := by
      rw [List.length_append]
      have h1 : midsLit.length = 12 := rfl
      have h2 : ("\nmessage_ids".toList).length = 12 := rfl
      rw [h1, h2]
      omega
    rw [drop_append_le _ hlen]
    exact bracketGroup_none_parts _
      (fun hm => lb_not_mem_pre htid hfrm (List.drop_subset _ _ hm))
  rw [show "thread_id: ".toList ++ (tid ++ ("\nfrom: ".toList ++ (frm
        ++ ("\nmessage_ids: ".toList ++ ('[' :: joinItems (toks.map dumpStr) ++ [']'])))))
      = ("thread_id: ".toList ++ (tid ++ ("\nfrom: ".toList ++ frm)))
        ++ ("\nmessage_ids: ".toList
          ++ ('[' :: joinItems (toks.map dumpStr) ++ [']'])) from by
      simp only [List.append_assoc]]
  unfold midsScan
  rw [scanFor_append_skip hfail]
  rw [show "\nmessage_ids: ".toList ++ ('[' :: joinItems (toks.map dumpStr) ++ [']'])
      = '\n' :: ("message_ids: ".toList ++ ('[' :: joinItems (toks.map dumpStr) ++ [']']))
      from rfl]
  rw [scanFor_cons_none (midsAt_none_head
    (by rw [show midsLit = 'm' :: "essage_ids:".toList from rfl, startsWith_cons]; simp))]
  rw [show "message_ids: ".toList ++ ('[' :: joinItems (toks.map dumpStr) ++ [']'])
      = midsLit ++ (' ' :: ('[' :: joinItems (toks.map dumpStr) ++ [']'])) from rfl]
  apply scanFor_of_some
  unfold midsAt
  rw [if_pos (startsWith_append_self _ _), List.drop_left]
  unfold bracketGroup
  rw [List.cons_append, List.dropWhile_cons, if_pos (by decide), List.dropWhile_cons,
    if_neg (by decide)]
  show (takeToBracket (joinItems (toks.map dumpStr) ++ [']'])).map (fun x => '[' :: x)
      = some ('[' :: (joinItems (toks.map dumpStr) ++ [']']))
  rw [takeToBracket_concat _ []
    (not_mem_joinItems_dump hcl (by decide) (by decide) (by decide) (by decide) (by decide))]
  rfl

theorem format_shape (tid frm : List Char) (toks : List (List Char)) :
    format_metadata_comment tid frm (toks.map .jstr)
      = metaLit ++ '\n' ::
          (("thread_id: ".toList ++ (tid ++ ("\nfrom: ".toList ++ (frm
              ++ ("\nmessage_ids: ".toList
                ++ ('[' :: joinItems (toks.map dumpStr) ++ [']']))))))
            ++ '\n' :: arrowLit) := by
  unfold format_metadata_comment
  rw [jdumpArr_jstr]
  simp only [List.append_assoc, List.cons_append, List.singleton_append]
  rfl

/-- C1 (as stated over bracket-free, newline-free strings) is false: the
thread id `a from: b` and the address `c` are valid by that rule, yet the
decoder finds the first `from:` inside the thread id line and returns `b`
as the customer address (the format does not escape its field labels). -/
theorem c1_counterexample :
    (parse_metadata_from_issue_body
        (format_metadata_comment "a from: b".toList "c".toList [])).map Metadata.from_email
      ≠ some (some "c".toList) := by
  decide

/-- C1, corrected: for printable-ASCII, bracket-free field values with a
nonempty thread id and address, neither starting nor ending in a space,
and a thread id that does not contain the literal `from:`, decoding the
encoded block returns exactly the encoded triple. -/
theorem c1_round_trip (tid frm : List Char) (toks : List (List Char))
    (h : ValidTriple tid frm toks) :
    parse_metadata_from_issue_body (format_metadata_comment tid frm (toks.map .jstr))
      = some ⟨some tid, some frm, toks.map .jstr⟩ := by
  obtain ⟨htid, hfrm, hcl, htne, hfne, hth, htl, hfh, hfl, hsub⟩ := h
  rw [format_shape]
  unfold parse_metadata_from_issue_body
  rw [blockScan_shape htid hfrm hcl]
  simp only [Option.elim]
  have h1 : fieldScan tidLit
      ("thread_id: ".toList ++ (tid ++ ("\nfrom: ".toList ++ (frm
          ++ ("\nmessage_ids: ".toList
            ++ ('[' :: joinItems (toks.map dumpStr) ++ [']'])))))) = some tid :=
    fieldScan_tid_gen htid htne hth
  have h2 : fieldScan fromLit
      ("thread_id: ".toList ++ (tid ++ ("\nfrom: ".toList ++ (frm
          ++ ("\nmessage_ids: ".toList
            ++ ('[' :: joinItems (toks.map dumpStr) ++ [']'])))))) = some frm :=
    fieldScan_from_gen hsub hfrm hfne hfh
  have h3 : midsScan
      ("thread_id: ".toList ++ (tid ++ ("\nfrom: ".toList ++ (frm
          ++ ("\nmessage_ids: ".toList
            ++ ('[' :: joinItems (toks.map dumpStr) ++ [']']))))))
      = some ('[' :: joinItems (toks.map dumpStr) ++ [']']) :=
    midsScan_gen htid hfrm hcl
  rw [h1, h2, h3]
  simp only [Option.map_some', Option.elim]
  rw [jsonLoads_dumpArr hcl]
  simp only [Option.elim]
  rw [strip_eq_self_clean htid hth htl, strip_eq_self_clean hfrm hfh hfl]
  rfl

/-- Witness for C1: a concrete valid triple round-trips through the
codec. -/
theorem c1_witness :
    ValidTriple "t-1".toList "a@b.c".toList ["m1.x".toList, "m2.y".toList] ∧
    parse_metadata_from_issue_body
        (format_metadata_comment "t-1".toList "a@b.c".toList
          (["m1.x".toList, "m2.y".toList].map Json.jstr))
      = some ⟨some "t-1".toList, some "a@b.c".toList,
          ["m1.x".toList, "m2.y".toList].map Json.jstr⟩ :=
  ⟨by unfold ValidTriple; decide,
   c1_round_trip _ _ _ (by unfold ValidTriple; decide)⟩

end Helpdesk
